import Mathlib

/-! pdfy: a verification development of the conversion core

Shallow embedding of `internal/converter` (front-matter extraction, configuration
merging, table-of-contents injection, template composition).

Go strings are modelled as `List Char`: every string operation used by the code
(`strings.HasPrefix`, `strings.Split`, `strings.Join`, `strings.Contains`,
`strings.ReplaceAll`, `strings.TrimSpace` and the heading regular expression) acts on
valid UTF-8 text code point by code point, so the list of code points is a faithful
carrier.  External libraries (the YAML decoder, the embedded asset file systems, the
operating system file reads) are parameters of the definitions that call them.
-/

namespace Pdfy

/-- A Go `string`, as its sequence of code points. -/
abbrev Str := List Char

/-! ## Data model (`config.go`) -/

/-- The `Config` struct of `config.go`. -/
structure Config where
  InputPath : Str
  OutputPath : Str
  TemplateName : Str
  CSSPath : Str
  Theme : Str
  deriving DecidableEq, Repr

/-- The `FrontMatter` struct of `config.go`. -/
structure FrontMatter where
  Title : Str
  Theme : Str
  Template : Str
  CSS : Str
  deriving DecidableEq, Repr

/-- The zero value `&FrontMatter{}`. -/
def FrontMatter.zero : FrontMatter := ⟨[], [], [], []⟩

/-! ## The `strings` functions the code calls -/

/-- `strings.HasPrefix(s, pre)`. -/
def stringsHasPrefix (s pre : Str) : Bool := pre.isPrefixOf s

/-- `strings.Split(s, "\n")`: the pieces of `s` between newlines; never empty. -/
def stringsSplit : Str → List Str
  | [] => [[]]
  | c :: cs =>
    if c = '\n' then [] :: stringsSplit cs
    else
      match stringsSplit cs with
      | l :: ls => (c :: l) :: ls
      | [] => [[c]]

/-- `strings.Join(elems, sep)`. -/
def stringsJoin : List Str → Str → Str
  | [], _ => []
  | [l], _ => l
  | l :: l' :: ls, sep => l ++ sep ++ stringsJoin (l' :: ls) sep

/-- The front-matter delimiter line `---`. -/
def delimiter : Str := ['-', '-', '-']

/-- The opening the code tests for: the delimiter followed by a newline. -/
def opening : Str := ['-', '-', '-', '\n']

/-! ## `parseFrontMatter` (`converter.go`, lines 84-133) -/

/-- The local variables of the line loop of `parseFrontMatter`. -/
structure ScanState where
  inFrontMatter : Bool
  frontMatterClosed : Bool
  frontMatterLines : List Str
  contentLines : List Str
  deriving DecidableEq, Repr

/-- The initial values of the loop variables. -/
def ScanState.init : ScanState := ⟨false, false, [], []⟩

/-- The `for i, line := range lines` loop, started at index `i` on the remaining lines.
`continue` is the recursive call, `break` returns the state; `lines[i+1:]` is the tail. -/
def scanLines : Nat → ScanState → List Str → ScanState
  | _, st, [] => st
  | i, st, line :: rest =>
    if i = 0 ∧ line = delimiter then
      scanLines (i + 1) { st with inFrontMatter := true } rest
    else if st.inFrontMatter = true ∧ line = delimiter then
      { st with frontMatterClosed := true, inFrontMatter := false, contentLines := rest }
    else if st.inFrontMatter = true then
      scanLines (i + 1) { st with frontMatterLines := st.frontMatterLines ++ [line] } rest
    else
      scanLines (i + 1) st rest

/-- The single error of `parseFrontMatter`: `invalid YAML front matter: %w`. -/
inductive FrontMatterError (ε : Type) where
  | invalidYAML (cause : ε)
  deriving DecidableEq, Repr

/-- `parseFrontMatter`.  `unmarshal data` stands for `yaml.Unmarshal(data, &FrontMatter{})`
of the external YAML library: the decoded struct, or the library's error. -/
def parseFrontMatter {ε : Type} (unmarshal : Str → Except ε FrontMatter) (content : Str) :
    Except (FrontMatterError ε) (FrontMatter × Str) :=
  if !stringsHasPrefix content opening then
    .ok (FrontMatter.zero, content)
  else
    let lines := stringsSplit content
    let st := scanLines 0 ScanState.init lines
    if !st.frontMatterClosed then
      .ok (FrontMatter.zero, content)
    else if 0 < st.frontMatterLines.length then
      match unmarshal (stringsJoin st.frontMatterLines ['\n']) with
      | .error e => .error (.invalidYAML e)
      | .ok fm => .ok (fm, stringsJoin st.contentLines ['\n'])
    else
      .ok (FrontMatter.zero, stringsJoin st.contentLines ['\n'])

/-! ## `mergeConfigWithFrontMatter` (`converter.go`, lines 136-146) -/

/-- `mergeConfigWithFrontMatter`: the configuration after the three in-place updates. -/
def mergeConfigWithFrontMatter (config : Config) (fm : FrontMatter) : Config :=
  let config := if fm.Theme ≠ [] then { config with Theme := fm.Theme } else config
  let config := if fm.Template ≠ [] then { config with TemplateName := fm.Template } else config
  let config := if fm.CSS ≠ [] then { config with CSSPath := fm.CSS } else config
  config

/-! ## A decoder for flat `key: value` documents

The YAML library is external; the concrete instances below run the code with this
decoder of one-line scalar mappings, which agrees with YAML on such documents. -/

/-- Split a line at its first `:` and drop one following blank. -/
def splitKeyValue : Str → Option (Str × Str)
  | [] => none
  | c :: cs =>
    if c = ':' then
      some ([], match cs with
        | ' ' :: v => v
        | v => v)
    else
      match splitKeyValue cs with
      | some (k, v) => some (c :: k, v)
      | none => none

/-- Store a value under one of the four recognised keys; other keys are ignored. -/
def setField (fm : FrontMatter) (k v : Str) : FrontMatter :=
  if k = "title".toList then { fm with Title := v }
  else if k = "theme".toList then { fm with Theme := v }
  else if k = "template".toList then { fm with Template := v }
  else if k = "css".toList then { fm with CSS := v }
  else fm

/-- Decode the lines of a flat mapping in order; a non-empty line without `:` is an error. -/
def flatDecodeLines : List Str → FrontMatter → Except Str FrontMatter
  | [], fm => .ok fm
  | l :: ls, fm =>
    if l = [] then flatDecodeLines ls fm
    else
      match splitKeyValue l with
      | some (k, v) => flatDecodeLines ls (setField fm k v)
      | none => .error l

/-- The flat decoder, as a stand-in for `yaml.Unmarshal` into a zero `FrontMatter`. -/
def flatUnmarshal (data : Str) : Except Str FrontMatter :=
  flatDecodeLines (stringsSplit data) FrontMatter.zero

/-! ## More `strings` functions -/

/-- `strings.Contains(s, substr)`. -/
def stringsContains : Str → Str → Bool
  | [], substr => substr.isPrefixOf []
  | c :: cs, substr => substr.isPrefixOf (c :: cs) || stringsContains cs substr

/-- The scan of `strings.ReplaceAll` for a non-empty `old`: `skip` counts the characters of
the occurrence just replaced that are still to be passed over. -/
def replaceScan (old new : Str) : Nat → Str → Str
  | _, [] => []
  | skip + 1, _ :: cs => replaceScan old new skip cs
  | 0, c :: cs =>
    if old.isPrefixOf (c :: cs) then new ++ replaceScan old new (old.length - 1) cs
    else c :: replaceScan old new 0 cs

/-- `strings.ReplaceAll(s, old, new)`: the non-overlapping occurrences of `old`, leftmost
first, are replaced by `new`; an empty `old` matches before every character and at the end. -/
def stringsReplaceAll (s old new : Str) : Str :=
  if old = [] then new ++ s.flatMap (fun c => c :: new)
  else replaceScan old new 0 s

/-- `unicode.IsSpace`. -/
def isSpace (c : Char) : Bool :=
  c.toNat ∈ [0x09, 0x0A, 0x0B, 0x0C, 0x0D, 0x20, 0x85, 0xA0, 0x1680, 0x2028, 0x2029, 0x202F,
    0x205F, 0x3000] || (0x2000 ≤ c.toNat && c.toNat ≤ 0x200A)

/-- `strings.TrimSpace(s)`. -/
def stringsTrimSpace (s : Str) : Str :=
  ((s.dropWhile isSpace).reverse.dropWhile isSpace).reverse

/-! ## The heading pattern (`converter.go`, line 192)

`<h([1-6])[^>]*id="([^"]*)"[^>]*>([^<]+)</h[1-6]>`, matched with the leftmost-first
semantics of Go's `regexp`: among the matches at a position the one a backtracking search
finds first, every repetition being greedy. -/

/-- One element of `FindAllStringSubmatch`: the three capture groups. -/
structure HeadingMatch where
  level : Str
  id : Str
  title : Str
  deriving DecidableEq, Repr

/-- The class `[1-6]`. -/
def isLevelDigit (c : Char) : Bool := decide ('1' ≤ c) && decide (c ≤ '6')

/-- A greedy repetition `[cls]*` followed by the rest `k` of the pattern: the longest run
is tried first, then shorter ones.  `acc` is the run consumed so far. -/
def matchStar {α : Type} (cls : Char → Bool) (k : Str → Str → Option α) : Str → Str → Option α
  | acc, [] => k acc []
  | acc, c :: cs =>
    if cls c then (matchStar cls k (acc ++ [c]) cs).orElse (fun _ => k acc (c :: cs))
    else k acc (c :: cs)

/-- A greedy repetition `[cls]+` followed by the rest `k` of the pattern. -/
def matchPlus {α : Type} (cls : Char → Bool) (k : Str → Str → Option α) : Str → Option α
  | [] => none
  | c :: cs => if cls c then matchStar cls k [c] cs else none

/-- The tail `</h[1-6]>` of the pattern, after the title run `title`. -/
def matchClose (level id : Str) (title : Str) : Str → Option (HeadingMatch × Str)
  | '<' :: '/' :: 'h' :: d :: '>' :: rest =>
    if isLevelDigit d then some (⟨level, id, title⟩, rest) else none
  | _ => none

/-- The part `>([^<]+)</h[1-6]>` of the pattern. -/
def matchTitle (level id : Str) : Str → Option (HeadingMatch × Str)
  | '>' :: rest => matchPlus (fun c => c != '<') (fun title s => matchClose level id title s) rest
  | _ => none

/-- The part `"[^>]*>([^<]+)</h[1-6]>` of the pattern, after the id run `id`. -/
def matchAfterId (level : Str) (id : Str) : Str → Option (HeadingMatch × Str)
  | '"' :: rest => matchStar (fun c => c != '>') (fun _ s => matchTitle level id s) [] rest
  | _ => none

/-- The part `id="([^"]*)"[^>]*>([^<]+)</h[1-6]>` of the pattern. -/
def matchId (level : Str) : Str → Option (HeadingMatch × Str)
  | 'i' :: 'd' :: '=' :: '"' :: rest =>
    matchStar (fun c => c != '"') (fun id s => matchAfterId level id s) [] rest
  | _ => none

/-- The whole pattern anchored at the start of `s`: the captures of the preferred match and
the text after it, or `none`. -/
def matchHeading : Str → Option (HeadingMatch × Str)
  | '<' :: 'h' :: d :: rest =>
    if isLevelDigit d then matchStar (fun c => c != '>') (fun _ s => matchId [d] s) [] rest
    else none
  | _ => none

/-- The scan of `FindAllStringSubmatch(html, -1)`: successive non-overlapping matches,
leftmost first; `skip` counts the characters of the last match still to be passed over. -/
def findAllScan : Nat → Str → List HeadingMatch
  | _, [] => []
  | skip + 1, _ :: cs => findAllScan skip cs
  | 0, c :: cs =>
    match matchHeading (c :: cs) with
    | some (m, rest) => m :: findAllScan ((c :: cs).length - rest.length - 1) cs
    | none => findAllScan 0 cs

/-- `headingRegex.FindAllStringSubmatch(html, -1)`. -/
def findAllStringSubmatch (html : Str) : List HeadingMatch := findAllScan 0 html

/-! ## `processTableOfContents` (`converter.go`, lines 186-222) -/

/-- The marker `<!-- TOC -->`. -/
def tocMarker : Str := ['<', '!', '-', '-', ' ', 'T', 'O', 'C', ' ', '-', '-', '>']

/-- The indentation loop: `indent` stays empty for level `1`, otherwise two blanks are
appended for every `i` with `1 <= i < len(level)`. -/
def tocIndent (level : Str) : Str :=
  if level ≠ ['1'] then
    (List.range' 1 (level.length - 1)).foldl (fun indent _ => indent ++ [' ', ' ']) []
  else []

/-- The line written for one match:
`fmt.Sprintf("%s<li><a href=\"#%s\">%s</a></li>\n", indent, id, title)`. -/
def tocLine (m : HeadingMatch) : Str :=
  tocIndent m.level ++ "<li><a href=\"#".toList ++ m.id ++ "\">".toList
    ++ stringsTrimSpace m.title ++ "</a></li>\n".toList

/-- The text accumulated in `tocBuilder`. -/
def tocText (found : List HeadingMatch) : Str :=
  found.foldl (fun b m => b ++ tocLine m)
      "<div class=\"toc\">\n<h2>Table of Contents</h2>\n<ul>\n".toList
    ++ "</ul>\n</div>\n".toList

/-- `processTableOfContents`. -/
def processTableOfContents (html : Str) : Str :=
  if !stringsContains html tocMarker then html
  else
    let found := findAllStringSubmatch html
    if found.length = 0 then stringsReplaceAll html tocMarker []
    else stringsReplaceAll html tocMarker (tocText found)

/-! ## Templates and styles (`templates.go`, `converter.go` lines 225-252) -/

/-- The lines of the raw string literal returned by `getDefaultTemplate`. -/
def getDefaultTemplateLines : List String :=
  [
    "<!DOCTYPE html>",
    "<html>",
    "<head>",
    "    <meta charset=\"UTF-8\">",
    "    <meta name=\"viewport\" content=\"width=device-width, initial-scale=1.0\">",
    "    <title>\x7b\x7bTITLE\x7d\x7d</title>",
    "    <meta name=\"author\" content=\"\x7b\x7bAUTHOR\x7d\x7d\">",
    "    <style>",
    "        \x7b\x7bCSS\x7d\x7d",
    "    </style>",
    "</head>",
    "<body>",
    "    <div class=\"document\">",
    "        <header class=\"page-header\">",
    "            \x7b\x7bHEADER\x7d\x7d",
    "        </header>",
    "        ",
    "        <main class=\"content\">",
    "            <div class=\"title-page\">",
    "                <h1 class=\"document-title\">\x7b\x7bTITLE\x7d\x7d</h1>",
    "                <p class=\"document-author\">\x7b\x7bAUTHOR\x7d\x7d</p>",
    "                <p class=\"document-date\">\x7b\x7bDATE\x7d\x7d</p>",
    "            </div>",
    "            ",
    "            <div class=\"document-content\">",
    "                \x7b\x7bCONTENT\x7d\x7d",
    "            </div>",
    "        </main>",
    "        ",
    "        <footer class=\"page-footer\">",
    "            \x7b\x7bFOOTER\x7d\x7d",
    "        </footer>",
    "    </div>",
    "</body>",
    "</html>"
  ]

/-- The lines of the raw string literal returned by `getDefaultCSS`. -/
def getDefaultCSSLines : List String :=
  [
    "",
    "/* Base styles */",
    "* \x7b",
    "    box-sizing: border-box;",
    "\x7d",
    "",
    "body \x7b",
    "    font-family: -apple-system, BlinkMacSystemFont, \x27Segoe UI\x27, \x27Roboto\x27, \x27Oxygen\x27, \x27Ubuntu\x27, \x27Cantarell\x27, sans-serif;",
    "    line-height: 1.6;",
    "    color: #333;",
    "    margin: 0;",
    "    padding: 20px;",
    "    background: white;",
    "\x7d",
    "",
    ".document \x7b",
    "    max-width: 210mm;",
    "    margin: 0 auto;",
    "    background: white;",
    "    box-shadow: 0 0 10px rgba(0,0,0,0.1);",
    "    padding: 40px;",
    "\x7d",
    "",
    "/* Typography */",
    "h1, h2, h3, h4, h5, h6 \x7b",
    "    margin-top: 2em;",
    "    margin-bottom: 1em;",
    "    line-height: 1.2;",
    "    page-break-after: avoid;",
    "\x7d",
    "",
    "h1 \x7b font-size: 2.5em; color: #2c3e50; \x7d",
    "h2 \x7b font-size: 2em; color: #34495e; border-bottom: 2px solid #eee; padding-bottom: 0.3em; \x7d",
    "h3 \x7b font-size: 1.5em; color: #34495e; \x7d",
    "h4 \x7b font-size: 1.2em; \x7d",
    "h5 \x7b font-size: 1.1em; \x7d",
    "h6 \x7b font-size: 1em; \x7d",
    "",
    "p \x7b",
    "    margin-bottom: 1em;",
    "    text-align: justify;",
    "\x7d",
    "",
    "/* Code blocks */",
    "code \x7b",
    "    font-family: \x27SFMono-Regular\x27, \x27Consolas\x27, \x27Liberation Mono\x27, \x27Menlo\x27, monospace;",
    "    background-color: #f8f9fa;",
    "    padding: 2px 6px;",
    "    border-radius: 3px;",
    "    font-size: 0.9em;",
    "\x7d",
    "",
    "pre \x7b",
    "    background-color: #f8f9fa;",
    "    border: 1px solid #e9ecef;",
    "    border-radius: 6px;",
    "    padding: 16px;",
    "    overflow-x: auto;",
    "    margin: 1em 0;",
    "    page-break-inside: avoid;",
    "\x7d",
    "",
    "pre code \x7b",
    "    background: none;",
    "    padding: 0;",
    "    border-radius: 0;",
    "\x7d",
    "",
    "/* Tables */",
    "table \x7b",
    "    width: 100%;",
    "    border-collapse: collapse;",
    "    margin: 1em 0;",
    "    page-break-inside: avoid;",
    "\x7d",
    "",
    "th, td \x7b",
    "    border: 1px solid #ddd;",
    "    padding: 12px;",
    "    text-align: left;",
    "\x7d",
    "",
    "th \x7b",
    "    background-color: #f8f9fa;",
    "    font-weight: 600;",
    "\x7d",
    "",
    "tr:nth-child(even) \x7b",
    "    background-color: #f8f9fa;",
    "\x7d",
    "",
    "/* Lists */",
    "ul, ol \x7b",
    "    margin: 1em 0;",
    "    padding-left: 2em;",
    "\x7d",
    "",
    "li \x7b",
    "    margin-bottom: 0.5em;",
    "\x7d",
    "",
    "/* Blockquotes */",
    "blockquote \x7b",
    "    margin: 1em 0;",
    "    padding: 0 1em;",
    "    border-left: 4px solid #3498db;",
    "    background-color: #f8f9fa;",
    "    font-style: italic;",
    "\x7d",
    "",
    "/* Links */",
    "a \x7b",
    "    color: #3498db;",
    "    text-decoration: none;",
    "\x7d",
    "",
    "a:hover \x7b",
    "    text-decoration: underline;",
    "\x7d",
    "",
    "/* Images */",
    "img \x7b",
    "    max-width: 100%;",
    "    height: auto;",
    "    display: block;",
    "    margin: 1em auto;",
    "\x7d",
    "",
    "/* Table of Contents */",
    ".toc \x7b",
    "    background-color: #f8f9fa;",
    "    border: 1px solid #e9ecef;",
    "    border-radius: 6px;",
    "    padding: 20px;",
    "    margin: 2em 0;",
    "    page-break-inside: avoid;",
    "\x7d",
    "",
    ".toc h2 \x7b",
    "    margin-top: 0;",
    "    margin-bottom: 1em;",
    "    border-bottom: none;",
    "\x7d",
    "",
    ".toc ul \x7b",
    "    list-style: none;",
    "    padding-left: 0;",
    "\x7d",
    "",
    ".toc li \x7b",
    "    margin-bottom: 0.3em;",
    "\x7d",
    "",
    ".toc a \x7b",
    "    text-decoration: none;",
    "    color: #333;",
    "\x7d",
    "",
    ".toc a:hover \x7b",
    "    color: #3498db;",
    "\x7d",
    "",
    "/* Title page */",
    ".title-page \x7b",
    "    text-align: center;",
    "    margin-bottom: 3em;",
    "    page-break-after: always;",
    "\x7d",
    "",
    ".document-title \x7b",
    "    font-size: 3em;",
    "    margin-bottom: 0.5em;",
    "    color: #2c3e50;",
    "\x7d",
    "",
    ".document-author \x7b",
    "    font-size: 1.2em;",
    "    color: #7f8c8d;",
    "    margin-bottom: 0.5em;",
    "\x7d",
    "",
    ".document-date \x7b",
    "    color: #95a5a6;",
    "\x7d",
    "",
    "/* Headers and footers */",
    ".page-header, .page-footer \x7b",
    "    font-size: 0.9em;",
    "    color: #7f8c8d;",
    "    text-align: center;",
    "    padding: 10px 0;",
    "\x7d",
    "",
    ".page-header \x7b",
    "    border-bottom: 1px solid #eee;",
    "    margin-bottom: 2em;",
    "\x7d",
    "",
    ".page-footer \x7b",
    "    border-top: 1px solid #eee;",
    "    margin-top: 2em;",
    "\x7d",
    "",
    "/* Print styles */",
    "@media print \x7b",
    "    body \x7b",
    "        padding: 0;",
    "    \x7d",
    "    ",
    "    .document \x7b",
    "        box-shadow: none;",
    "        max-width: none;",
    "        padding: 0;",
    "    \x7d",
    "    ",
    "    /* Page breaks */",
    "    h1, h2, h3, h4, h5, h6 \x7b",
    "        page-break-after: avoid;",
    "    \x7d",
    "    ",
    "    pre, blockquote, table, .toc \x7b",
    "        page-break-inside: avoid;",
    "    \x7d",
    "    ",
    "    /* Hide elements that shouldn\x27t print */",
    "    .no-print \x7b",
    "        display: none !important;",
    "    \x7d",
    "\x7d",
    "",
    "/* Page numbering for PDF */",
    "@page \x7b",
    "    margin: 2.5cm;",
    "    ",
    "    @bottom-center \x7b",
    "        content: counter(page) \" / \" counter(pages);",
    "        font-size: 9pt;",
    "        color: #666;",
    "    \x7d",
    "\x7d",
    "",
    "/* Syntax highlighting styles */",
    ".chroma .err \x7b color: #a61717; background-color: #e3d2d2 \x7d",
    ".chroma .k \x7b color: #000000; font-weight: bold \x7d",
    ".chroma .ch \x7b color: #999988; font-style: italic \x7d",
    ".chroma .cm \x7b color: #999988; font-style: italic \x7d",
    ".chroma .cp \x7b color: #999999; font-weight: bold \x7d",
    ".chroma .cpf \x7b color: #999988; font-style: italic \x7d",
    ".chroma .c1 \x7b color: #999988; font-style: italic \x7d",
    ".chroma .cs \x7b color: #999999; font-weight: bold; font-style: italic \x7d",
    ".chroma .gd \x7b color: #000000; background-color: #ffdddd \x7d",
    ".chroma .ge \x7b color: #000000; font-style: italic \x7d",
    ".chroma .gr \x7b color: #aa0000 \x7d",
    ".chroma .gh \x7b color: #999999 \x7d",
    ".chroma .gi \x7b color: #000000; background-color: #ddffdd \x7d",
    ".chroma .go \x7b color: #888888 \x7d",
    ".chroma .gp \x7b color: #555555 \x7d",
    ".chroma .gs \x7b font-weight: bold \x7d",
    ".chroma .gu \x7b color: #aaaaaa \x7d",
    ".chroma .gt \x7b color: #aa0000 \x7d",
    ".chroma .kc \x7b color: #000000; font-weight: bold \x7d",
    ".chroma .kd \x7b color: #000000; font-weight: bold \x7d",
    ".chroma .kn \x7b color: #000000; font-weight: bold \x7d",
    ".chroma .kp \x7b color: #000000; font-weight: bold \x7d",
    ".chroma .kr \x7b color: #000000; font-weight: bold \x7d",
    ".chroma .kt \x7b color: #445588; font-weight: bold \x7d",
    ".chroma .m \x7b color: #009999 \x7d",
    ".chroma .s \x7b color: #d01040 \x7d",
    ".chroma .na \x7b color: #008080 \x7d",
    ".chroma .nb \x7b color: #0086B3 \x7d",
    ".chroma .nc \x7b color: #445588; font-weight: bold \x7d",
    ".chroma .no \x7b color: #008080 \x7d",
    ".chroma .nd \x7b color: #3c5d5d; font-weight: bold \x7d",
    ".chroma .ni \x7b color: #800080 \x7d",
    ".chroma .ne \x7b color: #990000; font-weight: bold \x7d",
    ".chroma .nf \x7b color: #990000; font-weight: bold \x7d",
    ".chroma .nl \x7b color: #990000; font-weight: bold \x7d",
    ".chroma .nn \x7b color: #555555 \x7d",
    ".chroma .nt \x7b color: #000080 \x7d",
    ".chroma .nv \x7b color: #008080 \x7d",
    ".chroma .ow \x7b color: #000000; font-weight: bold \x7d",
    ".chroma .w \x7b color: #bbbbbb \x7d",
    ".chroma .mb \x7b color: #009999 \x7d",
    ".chroma .mf \x7b color: #009999 \x7d",
    ".chroma .mh \x7b color: #009999 \x7d",
    ".chroma .mi \x7b color: #009999 \x7d",
    ".chroma .mo \x7b color: #009999 \x7d",
    ".chroma .sa \x7b color: #d01040 \x7d",
    ".chroma .sb \x7b color: #d01040 \x7d",
    ".chroma .sc \x7b color: #d01040 \x7d",
    ".chroma .dl \x7b color: #d01040 \x7d",
    ".chroma .sd \x7b color: #d01040 \x7d",
    ".chroma .s2 \x7b color: #d01040 \x7d",
    ".chroma .se \x7b color: #d01040 \x7d",
    ".chroma .sh \x7b color: #d01040 \x7d",
    ".chroma .si \x7b color: #d01040 \x7d",
    ".chroma .sx \x7b color: #d01040 \x7d",
    ".chroma .sr \x7b color: #009926 \x7d",
    ".chroma .s1 \x7b color: #d01040 \x7d",
    ".chroma .ss \x7b color: #990073 \x7d",
    ".chroma .bp \x7b color: #999999 \x7d",
    ".chroma .fm \x7b color: #990000; font-weight: bold \x7d",
    ".chroma .vc \x7b color: #008080 \x7d",
    ".chroma .vg \x7b color: #008080 \x7d",
    ".chroma .vi \x7b color: #008080 \x7d",
    ".chroma .vm \x7b color: #008080 \x7d",
    ".chroma .il \x7b color: #009999 \x7d",
    ""
  ]

/-- `getDefaultTemplate`. -/
def getDefaultTemplate : Str :=
  stringsJoin (getDefaultTemplateLines.map String.toList) ['\n']

/-- `getDefaultCSS`. -/
def getDefaultCSS : Str :=
  stringsJoin (getDefaultCSSLines.map String.toList) ['\n']

/-- The error of `loadCSS`: `failed to read custom CSS file: %w`. -/
inductive TemplateError (ε : Type) where
  | customCSS (cause : ε)
  deriving DecidableEq, Repr

/-- `loadTemplate`.  `templatesFS path` stands for `templatesFS.ReadFile(path)` of the
embedded file system: the content, or `none` when the read fails. -/
def loadTemplate {ε : Type} (templatesFS : Str → Option Str) (config : Config) :
    Except (TemplateError ε) Str :=
  let templateName := if config.TemplateName = [] then "default".toList else config.TemplateName
  let templatePath := "templates/".toList ++ templateName ++ ".html".toList
  match templatesFS templatePath with
  | some content => .ok content
  | none => .ok getDefaultTemplate

/-- `loadCSS`.  `themesFS` is the embedded theme file system, `readFile path` stands for
`os.ReadFile(path)`. -/
def loadCSS {ε : Type} (themesFS : Str → Option Str) (readFile : Str → Except ε Str)
    (config : Config) : Except (TemplateError ε) Str :=
  let theme := if config.Theme = [] then "light".toList else config.Theme
  let themePath := "themes/".toList ++ theme ++ ".css".toList
  let cssBuilder :=
    match themesFS themePath with
    | some themeCSS => themeCSS ++ ['\n']
    | none => getDefaultCSS ++ ['\n']
  if config.CSSPath ≠ [] then
    match readFile config.CSSPath with
    | .error e => .error (.customCSS e)
    | .ok customCSS => .ok (cssBuilder ++ customCSS)
  else .ok cssBuilder

/-- `getTitle`; `base` stands for `filepath.Base`. -/
def getTitle (base : Str → Str) (config : Config) (fm : FrontMatter) : Str :=
  if fm.Title ≠ [] then fm.Title else base config.InputPath

/-- The three placeholders of a template. -/
inductive Placeholder where
  | title
  | css
  | content
  deriving DecidableEq, Repr

/-- The literal text of a placeholder. -/
def Placeholder.text : Placeholder → Str
  | .title => ['{', '{', 'T', 'I', 'T', 'L', 'E', '}', '}']
  | .css => ['{', '{', 'C', 'S', 'S', '}', '}']
  | .content => ['{', '{', 'C', 'O', 'N', 'T', 'E', 'N', 'T', '}', '}']

/-- The three `strings.ReplaceAll` calls of `applyTemplate`, in the order of the code. -/
def replacePlaceholders (template title css content : Str) : Str :=
  let result := template
  let result := stringsReplaceAll result Placeholder.title.text title
  let result := stringsReplaceAll result Placeholder.css.text css
  let result := stringsReplaceAll result Placeholder.content.text content
  result

/-- `applyTemplate`. -/
def applyTemplate {ε : Type} (templatesFS themesFS : Str → Option Str)
    (readFile : Str → Except ε Str) (base : Str → Str) (config : Config) (content : Str)
    (frontMatter : FrontMatter) : Except (TemplateError ε) Str :=
  match loadTemplate templatesFS config with
  | .error e => .error e
  | .ok template =>
    match loadCSS themesFS readFile config with
    | .error e => .error e
    | .ok css => .ok (replacePlaceholders template (getTitle base config frontMatter) css content)

/-! ## The heading pattern as a language

The texts the pattern accepts, stated without reference to a search. -/

/-- The text `h` is an instance of the heading pattern: `<h`, a level digit, a run without
`>`, `id="`, a run without `"`, `"`, a run without `>`, `>`, a non-empty run without `<`,
`</h`, a level digit, `>`. -/
def IsHeadingText (h : Str) : Prop :=
  ∃ d a id b title d2, isLevelDigit d = true ∧ isLevelDigit d2 = true
    ∧ (∀ c ∈ a, c ≠ '>') ∧ (∀ c ∈ id, c ≠ '"') ∧ (∀ c ∈ b, c ≠ '>')
    ∧ title ≠ [] ∧ (∀ c ∈ title, c ≠ '<')
    ∧ h = '<' :: 'h' :: d :: (a ++ 'i' :: 'd' :: '=' :: '"' :: (id ++ '"' :: (b ++ '>' ::
          (title ++ ['<', '/', 'h', d2, '>']))))

/-- The fragment contains an instance of the heading pattern. -/
def ContainsPatternInstance (html : Str) : Prop :=
  ∃ pre h post, IsHeadingText h ∧ html = pre ++ h ++ post

/-! ## Headings that carry an attribute named `id`

The markup reading of `a heading element that carries an id attribute`: inside an opening
tag `<hN`, before its `>`, the text `id=` stands right after a white-space character. -/

/-- Inside an opening tag, before its `>`: an attribute named `id`. -/
def tagHoldsIdAttribute : Str → Bool
  | [] => false
  | c :: cs =>
    if c = '>' then false
    else (isSpace c && ['i', 'd', '='].isPrefixOf cs) || tagHoldsIdAttribute cs

/-- Some opening tag `<hN` of level 1 to 6 carries an attribute named `id`. -/
def headingCarriesIdAttribute : Str → Bool
  | [] => false
  | c :: cs =>
    (match c :: cs with
      | '<' :: 'h' :: d :: rest => isLevelDigit d && tagHoldsIdAttribute rest
      | _ => false) || headingCarriesIdAttribute cs

/-! ## Fragments made of heading tags and text

A fragment is a sequence of heading tags, each preceded by a filler text in which no `<hN`
opens, and a last filler text.  Three kinds of heading tags are told apart. -/

/-- The text `id="`. -/
def idOpen : Str := ['i', 'd', '=', '"']

/-- The text starts with a closing heading tag `</hM>`, `M` a digit 1 to 6. -/
def closesHeading : Str → Bool
  | '<' :: '/' :: 'h' :: d :: '>' :: _ => isLevelDigit d
  | _ => false

/-- A heading tag of a fragment. -/
inductive Element where
  /-- A heading with an id and a single text run as content:
  `<hN BEFORE id="ID" AFTER>TITLE</hM>`. -/
  | plain (digit : Char) (before id after title : Str) (closing : Char)
  /-- An opening tag that does not hold `id="`: `<hN TAG>`. -/
  | bare (digit : Char) (tag : Str)
  /-- An opening tag with an id whose text run is empty or followed by nested markup:
  `<hN BEFORE id="ID" AFTER>TEXT`. -/
  | nested (digit : Char) (before id after text : Str)
  deriving DecidableEq, Repr

/-- The text of a heading tag. -/
def Element.text : Element → Str
  | .plain digit before id after title closing =>
    '<' :: 'h' :: digit :: (before ++ idOpen ++ (id ++ '"' :: (after ++ '>' ::
      (title ++ ['<', '/', 'h', closing, '>']))))
  | .bare digit tag => '<' :: 'h' :: digit :: (tag ++ ['>'])
  | .nested digit before id after text =>
    '<' :: 'h' :: digit :: (before ++ idOpen ++ (id ++ '"' :: (after ++ '>' :: text)))

/-- The conditions on a heading tag, `follow` being the text of the fragment after it.
In all kinds the level is a digit 1 to 6 and the parts of the opening tag hold no `>`.
A plain heading: the id holds no `"`, no further `id="` follows in the tag, the title is a
non-empty run without `<`.  A bare tag: no `<` and no `id="` in the tag.  A nested heading:
no `<` in the tag, the id as for a plain heading, the text run holds no `<` and is followed
by the end of the fragment or by a `<` that, unless the run is empty, does not start a
closing heading tag. -/
def Element.admissible (e : Element) (follow : Str) : Prop :=
  match e with
  | .plain digit before id after title closing =>
    isLevelDigit digit = true ∧ isLevelDigit closing = true ∧ '>' ∉ before
      ∧ '"' ∉ id ∧ '>' ∉ id ∧ '>' ∉ after
      ∧ stringsContains (id ++ '"' :: after) idOpen = false
      ∧ title ≠ [] ∧ '<' ∉ title
  | .bare digit tag =>
    isLevelDigit digit = true ∧ '>' ∉ tag ∧ '<' ∉ tag ∧ stringsContains tag idOpen = false
  | .nested digit before id after text =>
    isLevelDigit digit = true ∧ '>' ∉ before ∧ '<' ∉ before
      ∧ '"' ∉ id ∧ '>' ∉ id ∧ '<' ∉ id ∧ '>' ∉ after ∧ '<' ∉ after
      ∧ stringsContains (id ++ '"' :: after) idOpen = false
      ∧ '<' ∉ text
      ∧ (follow = [] ∨ (follow.head? = some '<'
          ∧ (text = [] ∨ closesHeading follow = false)))

instance (e : Element) (follow : Str) : Decidable (e.admissible follow) := by
  cases e <;> unfold Element.admissible <;> infer_instance

/-- The captures of the pattern on a plain heading; the other kinds give no match. -/
def Element.captures : Element → Option HeadingMatch
  | .plain digit _ id _ title _ => some ⟨[digit], id, title⟩
  | .bare _ _ => none
  | .nested _ _ _ _ _ => none

/-- Some `<hN` with a level digit `N` opens in the text. -/
def hasHeadingOpen : Str → Bool
  | [] => false
  | c :: cs =>
    (match c :: cs with
      | '<' :: 'h' :: d :: _ => isLevelDigit d
      | _ => false) || hasHeadingOpen cs

/-- The fragment made of the given heading tags, each preceded by a filler text, and of a
last filler text. -/
def fragment : List (Str × Element) → Str → Str
  | [], last => last
  | (filler, e) :: rest, last => filler ++ (e.text ++ fragment rest last)

/-- No `<hN` opens in a filler text, and every heading tag meets its conditions. -/
def Admissible : List (Str × Element) → Str → Prop
  | [], last => hasHeadingOpen last = false
  | (filler, e) :: rest, last =>
    hasHeadingOpen filler = false ∧ e.admissible (fragment rest last) ∧ Admissible rest last

/-- The conditions on a fragment can be checked by evaluation. -/
def Admissible.decidable : (items : List (Str × Element)) → (last : Str) →
    Decidable (Admissible items last)
  | [], last => inferInstanceAs (Decidable (hasHeadingOpen last = false))
  | (filler, e) :: rest, last =>
    have := Admissible.decidable rest last
    inferInstanceAs (Decidable (hasHeadingOpen filler = false
      ∧ e.admissible (fragment rest last) ∧ Admissible rest last))

instance (items : List (Str × Element)) (last : Str) : Decidable (Admissible items last) :=
  Admissible.decidable items last

/-- The list item of a heading in the table of contents, after its indentation. -/
def tocLink (id title : Str) : Str :=
  "<li><a href=\"#".toList ++ id ++ "\">".toList ++ stringsTrimSpace title
    ++ "</a></li>\n".toList

/-- The sample fragment
`<h1 class="t" id="a">A</h1><h2>No id</h2><p>x</p><h2 id="b">B <em>x</em></h2>`
`<h3 id="c" data-x="1"> C </h3><!-- TOC -->`: a plain heading with an attribute before the
id, a heading without id, a heading with nested markup, a plain heading with an attribute
after the id, and the marker. -/
def sampleFragment : List (Str × Element) :=
  [([], .plain '1' " class=\"t\" ".toList "a".toList [] "A".toList '1'),
   ([], .bare '2' []),
   ("No id</h2><p>x</p>".toList, .nested '2' " ".toList "b".toList [] "B ".toList),
   ("<em>x</em></h2>".toList,
     .plain '3' " ".toList "c".toList " data-x=\"1\"".toList " C ".toList '3')]

/-! ## Orders of substitution and templates made of tags -/

/-- The name between the braces of a placeholder. -/
def Placeholder.name : Placeholder → Str
  | .title => ['T', 'I', 'T', 'L', 'E']
  | .css => ['C', 'S', 'S']
  | .content => ['C', 'O', 'N', 'T', 'E', 'N', 'T']

/-- One `strings.ReplaceAll` step of the composition, for the placeholder `p`. -/
def replaceStep (title css content : Str) (p : Placeholder) (s : Str) : Str :=
  stringsReplaceAll s p.text
    (match p with
      | .title => title
      | .css => css
      | .content => content)

/-- The replace-all steps applied to the template in the given order. -/
def replaceInOrder (title css content : Str) (order : List Placeholder) (template : Str) : Str :=
  order.foldl (fun s p => replaceStep title css content p s) template

/-- A piece of a template text: a character other than `{`, an opening brace together with
the character after it, or a tag `{{name}}`. -/
inductive Segment where
  | char (c : Char)
  | brace (c : Char)
  | tag (name : Str)
  deriving DecidableEq, Repr

/-- The text of a piece. -/
def Segment.text : Segment → Str
  | .char c => [c]
  | .brace c => ['{', c]
  | .tag name => '{' :: '{' :: (name ++ ['}', '}'])

/-- A plain character is not `{`, the character after a lone `{` is not `{`, and the name
of a tag holds no brace. -/
def Segment.wellFormed : Segment → Prop
  | .char c => c ≠ '{'
  | .brace c => c ≠ '{'
  | .tag name => ∀ x ∈ name, x ≠ '{' ∧ x ≠ '}'

instance (s : Segment) : Decidable s.wellFormed := by
  cases s <;> unfold Segment.wellFormed <;> infer_instance

/-- The text of a sequence of pieces. -/
def renderSegments (segs : List Segment) : Str := (segs.map Segment.text).flatten

/-- Every `{` of the text is followed by a character other than `{`. -/
def bracesFollowed : Str → Bool
  | [] => true
  | [c] => c != '{'
  | c :: d :: rest => if c = '{' then d != '{' && bracesFollowed rest else bracesFollowed (d :: rest)

/-- The pieces of a text in which every `{` is followed by a character other than `{`. -/
def toSegments : Str → List Segment
  | [] => []
  | [c] => [.char c]
  | c :: d :: rest => if c = '{' then .brace d :: toSegments rest else .char c :: toSegments (d :: rest)

/-- Replace the tags named `name` by the pieces `value`. -/
def substTag (name : Str) (value : List Segment) (segs : List Segment) : List Segment :=
  segs.flatMap (fun s => if s = .tag name then value else [s])

/-! ## The watch loop (`cmd/watch.go`, lines 55-92; `isMarkdownFile` in `cmd/batch.go`)

Times are nanoseconds on the clock of the process.  An event is handled at one clock
reading: the reading of `time.Since(lastProcessed)` and the one of `time.Now()` two
statements later are the timestamp of the event. -/

/-- `time.Second`, in nanoseconds. -/
def second : Int := 1000000000

/-- The largest `time.Duration`. -/
def maxDuration : Int := 9223372036854775807

/-- The smallest `time.Duration`. -/
def minDuration : Int := -9223372036854775808

/-- `t.Sub(u)`: the difference of two times, saturating at the range of `time.Duration`. -/
def timeSub (t u : Int) : Int :=
  if maxDuration < t - u then maxDuration
  else if t - u < minDuration then minDuration
  else t - u

/-- A notification of the file watcher: `fsnotify.Event`. -/
structure FsEvent where
  Name : Str
  Op : Nat
  deriving DecidableEq, Repr

/-- The bit `fsnotify.Write`. -/
def fsnotifyWrite : Nat := 2

/-- The loop of `filepath.Ext` from the end of the path, on the reversed path: `acc` is
the text after the current position. -/
def extScan : Str → Str → Str
  | [], _ => []
  | c :: cs, acc =>
    if c = '/' then []
    else if c = '.' then '.' :: acc
    else extScan cs (c :: acc)

/-- `filepath.Ext(path)` with the separator `/`: the suffix from the last dot of the last
element of the path, or the empty text. -/
def filepathExt (path : Str) : Str := extScan path.reverse []

/-- `isMarkdownFile`; `toLower` stands for `strings.ToLower`. -/
def isMarkdownFile (toLower : Str → Str) (filename : Str) : Bool :=
  let ext := toLower (filepathExt filename)
  decide (ext = ".md".toList) || decide (ext = ".markdown".toList)

/-- The lower case of the letters `A` to `Z`, on which it agrees with `strings.ToLower`. -/
def asciiToLower (s : Str) : Str :=
  s.map (fun c => if 'A' ≤ c ∧ c ≤ 'Z' then Char.ofNat (c.toNat + 32) else c)

/-- The state of the loop of `watchDirectory`: the map `recentlyProcessed`, and the calls of
`convertWatchedFile` made so far, each with the path and the time recorded for it. -/
structure WatchState where
  recentlyProcessed : Str → Option Int
  conversions : List (Str × Int)

/-- The state before the first event: `make(map[string]time.Time)`, no conversion. -/
def WatchState.init : WatchState := ⟨fun _ => none, []⟩

/-- One turn of the loop on an event read from `watcher.Events` at the time `now`. -/
def handleEvent (toLower : Str → Str) (st : WatchState) (event : FsEvent) (now : Int) :
    WatchState :=
  if event.Op &&& fsnotifyWrite = fsnotifyWrite ∧ isMarkdownFile toLower event.Name = true then
    let debounced :=
      match st.recentlyProcessed event.Name with
      | some lastProcessed => decide (timeSub now lastProcessed < 2 * second)
      | none => false
    if debounced then st
    else
      { recentlyProcessed := fun name => if name = event.Name then some now
                                          else st.recentlyProcessed name,
        conversions := st.conversions ++ [(event.Name, now)] }
  else st

/-- The loop on the events delivered until the channel is closed, each with the time at
which it is handled. -/
def watchLoop (toLower : Str → Str) (st : WatchState) (events : List (FsEvent × Int)) :
    WatchState :=
  events.foldl (fun st e => handleEvent toLower st e.1 e.2) st

/-- The time recorded for the last conversion of `path` among the conversions, if any. -/
def lastAccepted (path : Str) (conversions : List (Str × Int)) : Option Int :=
  ((conversions.filter (fun e => decide (e.1 = path))).getLast?).map (fun e => e.2)

/-- The invariant of the loop: the map holds, for every path, the time of its last
conversion; two conversions of one path are at least the window apart; and no conversion
of a path is later than the last one. -/
def WatchInvariant (st : WatchState) : Prop :=
  (∀ path, st.recentlyProcessed path = lastAccepted path st.conversions)
    ∧ st.conversions.Pairwise (fun a b => a.1 = b.1 → 2 * second ≤ b.2 - a.2)
    ∧ ∀ a ∈ st.conversions, ∃ last, lastAccepted a.1 st.conversions = some last ∧ a.2 ≤ last

/-! ## `htmlToPDFChrome` (`converter.go`, lines 260-317)

The file system is explicit state: the content of every existing file. -/

/-- The content of each existing file, by path. -/
abbrev FileSystem := Str → Option (List Nat)

/-- The bytes `[]byte(s)` of a text: its UTF-8 encoding. -/
def utf8Bytes (s : Str) : List Nat :=
  s.flatMap (fun c => (String.utf8EncodeChar c).map UInt8.toNat)

/-- `os.WriteFile(name, data, 0o644)`: `fails fs name` is the error of the operating system
when the write is refused; otherwise the file holds `data` afterwards. -/
def osWriteFile {ε : Type} (fails : FileSystem → Str → Option ε) (fs : FileSystem)
    (name : Str) (data : List Nat) : Option ε × FileSystem :=
  match fails fs name with
  | some e => (some e, fs)
  | none => (none, fun p => if p = name then some data else fs p)

/-- `os.Remove(name)`: the file does not exist afterwards. -/
def osRemove (fs : FileSystem) (name : Str) : FileSystem :=
  fun p => if p = name then none else fs p

/-- The three errors of `htmlToPDFChrome`. -/
inductive PDFError (ε : Type) where
  | writeTemp (cause : ε)
  | generate (cause : ε)
  | writePDF (cause : ε)
  deriving DecidableEq, Repr

/-- What `htmlToPDFChrome` leaves behind: the returned error, the file system, and the new
value of `stats.OutputSize` when it is assigned. -/
structure PDFOutcome (ε : Type) where
  err : Option (PDFError ε)
  fs : FileSystem
  outputSize : Option Nat

/-- `htmlToPDFChrome`.  `tempHTMLPath` is the path built from `os.TempDir()` and the clock;
`chromedpRun fs url` stands for the call of `chromedp.Run` under the 30 second deadline:
the PDF buffer, or the error of the session, the navigation, the capture or the expired
deadline, together with the file system the browser leaves.  The deferred
`os.Remove(tempHTMLPath)` is applied to the outcome of every return statement after the
`defer`. -/
def htmlToPDFChrome {ε : Type} (writeFails : FileSystem → Str → Option ε)
    (chromedpRun : FileSystem → Str → Except ε (List Nat) × FileSystem) (tempHTMLPath : Str)
    (config : Config) (fs : FileSystem) (htmlContent : Str) : PDFOutcome ε :=
  match osWriteFile writeFails fs tempHTMLPath (utf8Bytes htmlContent) with
  | (some e, fs1) => ⟨some (.writeTemp e), fs1, none⟩
  | (none, fs1) =>
    let deferred (out : PDFOutcome ε) : PDFOutcome ε :=
      { out with fs := osRemove out.fs tempHTMLPath }
    match chromedpRun fs1 ("file://".toList ++ tempHTMLPath) with
    | (.error e, fs2) => deferred ⟨some (.generate e), fs2, none⟩
    | (.ok pdfBuffer, fs2) =>
      match osWriteFile writeFails fs2 config.OutputPath pdfBuffer with
      | (some e, fs3) => deferred ⟨some (.writePDF e), fs3, none⟩
      | (none, fs3) => deferred ⟨none, fs3, some pdfBuffer.length⟩

/-! ## Texts that a replacement cannot touch -/

/-- Neither text is a prefix of the other. -/
def incomparable (u v : Str) : Bool := !u.isPrefixOf v && !v.isPrefixOf u

/-- No occurrence of `old` can overlap an occurrence of `kept`: `old` starts at no position
of `kept`, and no proper suffix of `old` starts `kept`. -/
def cannotOverlap (old kept : Str) : Bool :=
  (List.range kept.length).all (fun i => incomparable old (kept.drop i))
    && (List.range old.length).all (fun j => incomparable (old.drop j) kept)

/-! ## Lemmas on the string functions -/

theorem stringsSplit_ne_nil (s : Str) : stringsSplit s ≠ [] := by
  cases s with
  | nil => simp [stringsSplit]
  | cons c cs =>
    unfold stringsSplit
    split
    · simp
    · split <;> simp

theorem stringsSplit_append_newline (a b : Str) :
    stringsSplit (a ++ '\n' :: b) = stringsSplit a ++ stringsSplit b := by
  induction a with
  | nil => simp [stringsSplit]
  | cons c cs ih =>
    by_cases hc : c = '\n'
    · simp [stringsSplit, hc, ih]
    · cases h : stringsSplit cs with
      | nil => exact absurd h (stringsSplit_ne_nil cs)
      | cons l ls => simp [stringsSplit, hc, ih, h]

theorem stringsJoin_cons_cons (l l' : Str) (ls : List Str) (sep : Str) :
    stringsJoin (l :: l' :: ls) sep = l ++ sep ++ stringsJoin (l' :: ls) sep := rfl

theorem stringsJoin_split (s : Str) : stringsJoin (stringsSplit s) ['\n'] = s := by
  induction s with
  | nil => rfl
  | cons c cs ih =>
    by_cases hc : c = '\n'
    · cases h : stringsSplit cs with
      | nil => exact absurd h (stringsSplit_ne_nil cs)
      | cons l ls =>
        rw [h] at ih
        simp [stringsSplit, hc, h, stringsJoin_cons_cons, ih]
    · cases h : stringsSplit cs with
      | nil => exact absurd h (stringsSplit_ne_nil cs)
      | cons l ls =>
        rw [h] at ih
        simp only [stringsSplit, hc, if_false, h]
        cases ls with
        | nil =>
          simp only [stringsJoin] at ih ⊢
          rw [ih]
        | cons l' ls' =>
          rw [stringsJoin_cons_cons] at ih ⊢
          simp only [List.cons_append, ih]

/-! ## Lemmas on the line loop -/

theorem scanLines_unclosed (ls : List Str) (i : Nat) (st : ScanState) (hi : i ≠ 0)
    (hin : st.inFrontMatter = true) (hls : delimiter ∉ ls) :
    scanLines i st ls = { st with frontMatterLines := st.frontMatterLines ++ ls } := by
  induction ls generalizing i st with
  | nil => simp [scanLines]
  | cons l ls ih =>
    have hl : l ≠ delimiter := fun h => hls (by simp [h])
    have hls' : delimiter ∉ ls := fun h => hls (by simp [h])
    simp only [scanLines, hi, hl, hin, false_and, and_false, if_false, if_true]
    exact (ih (i + 1) _ (by omega) rfl hls').trans (by simp)

theorem scanLines_closed (block rest : List Str) (i : Nat) (st : ScanState) (hi : i ≠ 0)
    (hin : st.inFrontMatter = true) (hb : delimiter ∉ block) :
    scanLines i st (block ++ delimiter :: rest) =
      { inFrontMatter := false, frontMatterClosed := true,
        frontMatterLines := st.frontMatterLines ++ block, contentLines := rest } := by
  induction block generalizing i st with
  | nil => simp [scanLines, hi, hin]
  | cons l ls ih =>
    have hl : l ≠ delimiter := fun h => hb (by simp [h])
    have hls' : delimiter ∉ ls := fun h => hb (by simp [h])
    simp only [List.cons_append, scanLines, hi, hl, hin, false_and, and_false, if_false,
      if_true]
    exact (ih (i + 1) _ (by omega) rfl hls').trans (by simp)

theorem stringsHasPrefix_iff (s pre : Str) :
    stringsHasPrefix s pre = true ↔ ∃ rest, s = pre ++ rest := by
  simp only [stringsHasPrefix, List.isPrefixOf_iff_prefix]
  constructor
  · rintro ⟨t, ht⟩
    exact ⟨t, ht.symm⟩
  · rintro ⟨t, ht⟩
    exact ⟨t, ht.symm⟩

theorem stringsSplit_opening (rest : Str) :
    stringsSplit (opening ++ rest) = delimiter :: stringsSplit rest := by
  have h := stringsSplit_append_newline delimiter rest
  have hd : stringsSplit delimiter = [delimiter] := by decide
  rw [hd] at h
  simpa [opening, delimiter] using h

/-- Every list of lines either has no delimiter line, or splits at its first one. -/
theorem first_delimiter (ls : List Str) :
    delimiter ∉ ls ∨ ∃ block rest, ls = block ++ delimiter :: rest ∧ delimiter ∉ block := by
  induction ls with
  | nil => left; simp
  | cons l ls ih =>
    by_cases hl : l = delimiter
    · right
      exact ⟨[], ls, by simp [hl], by simp⟩
    · rcases ih with h | ⟨block, rest, h1, h2⟩
      · left
        simp only [List.mem_cons, not_or]
        exact ⟨fun h => hl h.symm, h⟩
      · right
        refine ⟨l :: block, rest, by simp [h1], ?_⟩
        simp only [List.mem_cons, not_or]
        exact ⟨fun h => hl h.symm, h2⟩

/-- The result on a document without the opening. -/
theorem parseFrontMatter_no_opening {ε : Type} (unmarshal : Str → Except ε FrontMatter)
    (content : Str) (h : stringsHasPrefix content opening = false) :
    parseFrontMatter unmarshal content = .ok (FrontMatter.zero, content) := by
  simp [parseFrontMatter, h]

/-- The result on a document with the opening and no closing delimiter line. -/
theorem parseFrontMatter_unclosed {ε : Type} (unmarshal : Str → Except ε FrontMatter)
    (rest : Str) (h : delimiter ∉ stringsSplit rest) :
    parseFrontMatter unmarshal (opening ++ rest) = .ok (FrontMatter.zero, opening ++ rest) := by
  have hp : stringsHasPrefix (opening ++ rest) opening = true :=
    (stringsHasPrefix_iff _ _).2 ⟨rest, rfl⟩
  have hs : scanLines 0 ScanState.init (stringsSplit (opening ++ rest)) =
      { inFrontMatter := true, frontMatterClosed := false,
        frontMatterLines := stringsSplit rest, contentLines := [] } := by
    rw [stringsSplit_opening]
    simp only [scanLines, true_and, if_true]
    rw [scanLines_unclosed _ _ _ (by omega) rfl h]
    simp [ScanState.init]
  simp only [parseFrontMatter, hp, hs]
  simp

/-- The result on a document with the opening whose first later delimiter line closes
the block `block`. -/
theorem parseFrontMatter_closed {ε : Type} (unmarshal : Str → Except ε FrontMatter)
    (tail : Str) (block rest : List Str) (hsplit : stringsSplit tail = block ++ delimiter :: rest)
    (hb : delimiter ∉ block) :
    parseFrontMatter unmarshal (opening ++ tail) =
      if block = [] then .ok (FrontMatter.zero, stringsJoin rest ['\n'])
      else
        match unmarshal (stringsJoin block ['\n']) with
        | .error e => .error (.invalidYAML e)
        | .ok fm => .ok (fm, stringsJoin rest ['\n']) := by
  have hp : stringsHasPrefix (opening ++ tail) opening = true :=
    (stringsHasPrefix_iff _ _).2 ⟨tail, rfl⟩
  have hs : scanLines 0 ScanState.init (stringsSplit (opening ++ tail)) =
      { inFrontMatter := false, frontMatterClosed := true,
        frontMatterLines := block, contentLines := rest } := by
    rw [stringsSplit_opening, hsplit]
    simp only [scanLines, true_and, if_true]
    rw [scanLines_closed _ _ _ _ (by omega) rfl hb]
    simp [ScanState.init]
  simp only [parseFrontMatter, hp, hs]
  cases block with
  | nil => simp
  | cons l ls => simp

/-! ## Front-matter extraction: the claims -/

/-- C1: for a metadata text `M` none of whose lines is the delimiter and which the YAML
decoder accepts with result `fm`, and for every body `B`, `parseFrontMatter` applied to
`---\n` + `M` + `\n---\n` + `B` returns no error, the metadata `fm` decoded from exactly
`M`, and the body exactly `B` (later delimiter lines inside `B` are kept). -/
theorem parseFrontMatter_block_body {ε : Type} (unmarshal : Str → Except ε FrontMatter)
    (M B : Str) (fm : FrontMatter) (hM : delimiter ∉ stringsSplit M)
    (hY : unmarshal M = .ok fm) :
    parseFrontMatter unmarshal ("---\n".toList ++ M ++ "\n---\n".toList ++ B) = .ok (fm, B) := by
  have hdoc : "---\n".toList ++ M ++ "\n---\n".toList ++ B
      = opening ++ (M ++ '\n' :: (delimiter ++ '\n' :: B)) := by
    simp [opening, delimiter]
  have hsplit : stringsSplit (M ++ '\n' :: (delimiter ++ '\n' :: B))
      = stringsSplit M ++ delimiter :: stringsSplit B := by
    rw [stringsSplit_append_newline, stringsSplit_append_newline]
    have hd : stringsSplit delimiter = [delimiter] := by decide
    simp [hd]
  rw [hdoc, parseFrontMatter_closed unmarshal _ _ _ hsplit hM]
  simp [stringsSplit_ne_nil, stringsJoin_split, hY]

/-- C1, the instance of the specification: `---\ntitle: X\n---\nBody` yields the title `X`
and the body `Body`. -/
theorem parseFrontMatter_block_body_witness :
    parseFrontMatter flatUnmarshal
        ("---\n".toList ++ "title: X".toList ++ "\n---\n".toList ++ "Body".toList)
      = .ok (⟨"X".toList, [], [], []⟩, "Body".toList) :=
  parseFrontMatter_block_body flatUnmarshal "title: X".toList "Body".toList
    ⟨"X".toList, [], [], []⟩ (by decide) rfl

/-- C2: after `mergeConfigWithFrontMatter` each of `Theme`, `TemplateName` and `CSSPath`
is the front-matter field when that field is non-empty, whatever the caller had set, and
its previous value when the field is empty. -/
theorem mergeConfigWithFrontMatter_fields (config : Config) (fm : FrontMatter) :
    (mergeConfigWithFrontMatter config fm).Theme
        = (if fm.Theme ≠ [] then fm.Theme else config.Theme)
    ∧ (mergeConfigWithFrontMatter config fm).TemplateName
        = (if fm.Template ≠ [] then fm.Template else config.TemplateName)
    ∧ (mergeConfigWithFrontMatter config fm).CSSPath
        = (if fm.CSS ≠ [] then fm.CSS else config.CSSPath) := by
  unfold mergeConfigWithFrontMatter
  refine ⟨?_, ?_, ?_⟩ <;>
    by_cases h1 : fm.Theme = [] <;> by_cases h2 : fm.Template = [] <;>
    by_cases h3 : fm.CSS = [] <;> simp [h1, h2, h3]

/-- C4: a document that begins with the delimiter line and has no later line equal to the
delimiter is returned unchanged, with empty metadata and no error, whatever the YAML
decoder would answer (it is never consulted). -/
theorem parseFrontMatter_fail_open {ε : Type} (unmarshal : Str → Except ε FrontMatter)
    (content : Str) (hopen : stringsHasPrefix content "---\n".toList = true)
    (hlater : "---".toList ∉ (stringsSplit content).tail) :
    parseFrontMatter unmarshal content = .ok (FrontMatter.zero, content) := by
  obtain ⟨rest, rfl⟩ := (stringsHasPrefix_iff _ _).1 hopen
  have ho : "---\n".toList = opening := rfl
  have hd : "---".toList = delimiter := rfl
  rw [ho] at hlater ⊢
  rw [stringsSplit_opening, hd] at hlater
  exact parseFrontMatter_unclosed unmarshal rest hlater

/-- C4 at the document `---\ntitle: X` with a decoder that rejects every input. -/
theorem parseFrontMatter_fail_open_witness :
    parseFrontMatter (fun _ => (Except.error () : Except Unit FrontMatter))
        "---\ntitle: X".toList
      = .ok (FrontMatter.zero, "---\ntitle: X".toList) :=
  parseFrontMatter_fail_open _ "---\ntitle: X".toList (by decide) (by decide)

/-- C5: a document whose first line is not exactly the delimiter is returned unchanged,
with empty metadata (all four fields empty) and no error. -/
theorem parseFrontMatter_no_delimiter {ε : Type} (unmarshal : Str → Except ε FrontMatter)
    (content : Str) (hfirst : (stringsSplit content).head? ≠ some "---".toList) :
    parseFrontMatter unmarshal content = .ok (⟨[], [], [], []⟩, content) := by
  apply parseFrontMatter_no_opening
  cases hp : stringsHasPrefix content opening with
  | false => rfl
  | true =>
    obtain ⟨rest, rfl⟩ := (stringsHasPrefix_iff _ _).1 hp
    rw [stringsSplit_opening] at hfirst
    exact absurd rfl hfirst

/-- C5 at the document `# Title` followed by a delimiter line. -/
theorem parseFrontMatter_no_delimiter_witness :
    parseFrontMatter flatUnmarshal "# Title\n---\nx: y\n---\n".toList
      = .ok (⟨[], [], [], []⟩, "# Title\n---\nx: y\n---\n".toList) :=
  parseFrontMatter_no_delimiter flatUnmarshal "# Title\n---\nx: y\n---\n".toList (by decide)

/-- C6: `parseFrontMatter` returns an error exactly when the document starts with the
delimiter line, a closing delimiter line is found, the block between the two has at least
one line, and decoding that block fails; and a document `---\n---\n` + `B` (empty block)
yields empty metadata and the body `B`. -/
theorem parseFrontMatter_error_iff {ε : Type} (unmarshal : Str → Except ε FrontMatter)
    (content : Str) :
    ((∃ err, parseFrontMatter unmarshal content = .error err) ↔
      (stringsHasPrefix content "---\n".toList = true ∧
        ∃ block rest, stringsSplit content = "---".toList :: (block ++ "---".toList :: rest)
          ∧ "---".toList ∉ block ∧ block ≠ []
          ∧ ∃ e, unmarshal (stringsJoin block "\n".toList) = .error e))
    ∧ ∀ B : Str,
        parseFrontMatter unmarshal ("---\n---\n".toList ++ B) = .ok (FrontMatter.zero, B) := by
  have ho : "---\n".toList = opening := rfl
  have hd : "---".toList = delimiter := rfl
  have hn : "\n".toList = ['\n'] := rfl
  rw [ho, hd, hn]
  refine ⟨⟨?_, ?_⟩, ?_⟩
  · rintro ⟨err, herr⟩
    cases hp : stringsHasPrefix content opening with
    | false => rw [parseFrontMatter_no_opening _ _ hp] at herr; cases herr
    | true =>
      refine ⟨rfl, ?_⟩
      obtain ⟨tail, rfl⟩ := (stringsHasPrefix_iff _ _).1 hp
      rcases first_delimiter (stringsSplit tail) with h | ⟨block, rest, hsplit, hb⟩
      · rw [parseFrontMatter_unclosed _ _ h] at herr; cases herr
      · rw [parseFrontMatter_closed unmarshal _ _ _ hsplit hb] at herr
        refine ⟨block, rest, by rw [stringsSplit_opening, hsplit], hb, ?_⟩
        by_cases hnil : block = []
        · rw [if_pos hnil] at herr; cases herr
        · rw [if_neg hnil] at herr
          refine ⟨hnil, ?_⟩
          cases hu : unmarshal (stringsJoin block ['\n']) with
          | error e => exact ⟨e, rfl⟩
          | ok fm => rw [hu] at herr; cases herr
  · rintro ⟨hp, block, rest, hsplit, hb, hnil, e, he⟩
    obtain ⟨tail, rfl⟩ := (stringsHasPrefix_iff _ _).1 hp
    rw [stringsSplit_opening] at hsplit
    rw [parseFrontMatter_closed unmarshal _ _ _ (List.cons.inj hsplit).2 hb, if_neg hnil, he]
    exact ⟨_, rfl⟩
  · intro B
    have hdoc : "---\n---\n".toList ++ B = opening ++ (delimiter ++ '\n' :: B) := by
      simp [opening, delimiter]
    have hsplit : stringsSplit (delimiter ++ '\n' :: B) = [] ++ delimiter :: stringsSplit B := by
      rw [stringsSplit_append_newline]
      have hd : stringsSplit delimiter = [delimiter] := by decide
      simp [hd]
    rw [hdoc, parseFrontMatter_closed unmarshal _ _ _ hsplit (by simp)]
    simp [stringsJoin_split]

/-! ## Lemmas on `strings.ReplaceAll` and `strings.Contains` -/

theorem replaceScan_skip (old new : Str) (n : Nat) (s : Str) :
    replaceScan old new n s = replaceScan old new 0 (s.drop n) := by
  induction s generalizing n with
  | nil => simp [replaceScan]
  | cons c cs ih =>
    cases n with
    | zero => simp
    | succ k => simp only [replaceScan, List.drop_succ_cons]; exact ih k

theorem replaceScan_nil (old new : Str) (n : Nat) : replaceScan old new n [] = [] := by
  cases n <;> rfl

theorem replaceScan_miss (old new : Str) (c : Char) (cs : Str)
    (h : old.isPrefixOf (c :: cs) = false) :
    replaceScan old new 0 (c :: cs) = c :: replaceScan old new 0 cs := by
  simp [replaceScan, h]

theorem replaceScan_hit (old new : Str) (t : Str) (hold : old ≠ []) :
    replaceScan old new 0 (old ++ t) = new ++ replaceScan old new 0 t := by
  cases old with
  | nil => exact absurd rfl hold
  | cons o os =>
    have hp : (o :: os).isPrefixOf (o :: (os ++ t)) = true := by
      rw [List.isPrefixOf_iff_prefix]
      exact ⟨t, rfl⟩
    simp only [List.cons_append, replaceScan, hp, if_true]
    rw [replaceScan_skip]
    simp

theorem stringsContains_of_prefix (s old : Str) (h : old.isPrefixOf s = true) :
    stringsContains s old = true := by
  cases s with
  | nil => simpa [stringsContains] using h
  | cons c cs => simp [stringsContains, h]

theorem stringsContains_iff (s old : Str) :
    stringsContains s old = true ↔ ∃ pre post, s = pre ++ old ++ post := by
  induction s with
  | nil =>
    simp only [stringsContains, List.isPrefixOf_iff_prefix]
    constructor
    · rintro ⟨t, ht⟩
      exact ⟨[], t, by simpa using ht.symm⟩
    · rintro ⟨pre, post, h⟩
      have h1 : pre = [] := by
        cases pre with
        | nil => rfl
        | cons a as => simp at h
      subst h1
      exact ⟨post, by simpa using h.symm⟩
  | cons c cs ih =>
    simp only [stringsContains, Bool.or_eq_true, List.isPrefixOf_iff_prefix, ih]
    constructor
    · rintro (⟨t, ht⟩ | ⟨pre, post, h⟩)
      · exact ⟨[], t, by simpa using ht.symm⟩
      · exact ⟨c :: pre, post, by simp [h]⟩
    · rintro ⟨pre, post, h⟩
      cases pre with
      | nil => left; exact ⟨post, by simpa using h.symm⟩
      | cons a as =>
        right
        simp only [List.cons_append, List.cons.injEq] at h
        exact ⟨as, post, by simpa using h.2⟩

/-- Deleting the occurrences of a non-empty `old`: the text is cut into pieces that do not
contain `old`, separated by `old`, and the result is the concatenation of the pieces. -/
theorem replaceScan_delete (old : Str) (hold : old ≠ []) (s : Str) (n : Nat) :
    ∃ chunks : List Str, chunks ≠ [] ∧ s.drop n = stringsJoin chunks old
      ∧ (∀ c ∈ chunks, stringsContains c old = false)
      ∧ replaceScan old [] n s = chunks.flatten := by
  induction s generalizing n with
  | nil =>
    refine ⟨[[]], by simp, by simp [stringsJoin], ?_, by simp [replaceScan_nil]⟩
    intro c hc
    simp only [List.mem_singleton] at hc
    subst hc
    cases old with
    | nil => exact absurd rfl hold
    | cons o os => simp [stringsContains, List.isPrefixOf]
  | cons c cs ih =>
    cases n with
    | succ k =>
      obtain ⟨chunks, h1, h2, h3, h4⟩ := ih k
      exact ⟨chunks, h1, by simpa using h2, h3, by simpa [replaceScan] using h4⟩
    | zero =>
      cases hp : old.isPrefixOf (c :: cs) with
      | true =>
        obtain ⟨t, ht⟩ := List.isPrefixOf_iff_prefix.1 hp
        obtain ⟨chunks, h1, h2, h3, h4⟩ := ih (old.length - 1)
        have hdrop : cs.drop (old.length - 1) = t := by
          cases old with
          | nil => exact absurd rfl hold
          | cons o os =>
            simp only [List.cons_append, List.cons.injEq] at ht
            rw [← ht.2]
            simp
        refine ⟨[] :: chunks, by simp, ?_, ?_, ?_⟩
        · cases chunks with
          | nil => exact absurd rfl h1
          | cons x xs =>
            rw [stringsJoin_cons_cons, ← h2, hdrop]
            simpa using ht.symm
        · intro x hx
          rcases List.mem_cons.1 hx with hx | hx
          · subst hx
            cases old with
            | nil => exact absurd rfl hold
            | cons o os => simp [stringsContains, List.isPrefixOf]
          · exact h3 x hx
        · simp only [replaceScan, hp, if_true, List.nil_append, List.flatten_cons]
          exact h4
      | false =>
        obtain ⟨chunks, h1, h2, h3, h4⟩ := ih 0
        cases chunks with
        | nil => exact absurd rfl h1
        | cons x xs =>
          have hcs : cs = stringsJoin (x :: xs) old := by simpa using h2
          have hjoin : c :: stringsJoin (x :: xs) old = stringsJoin ((c :: x) :: xs) old := by
            cases xs with
            | nil => rfl
            | cons y ys => simp [stringsJoin_cons_cons]
          refine ⟨(c :: x) :: xs, by simp, ?_, ?_, ?_⟩
          · simp only [List.drop_zero]
            rw [← hjoin, ← hcs]
          · intro y hy
            rcases List.mem_cons.1 hy with hy | hy
            · subst hy
              have hx := h3 x (by simp)
              simp only [stringsContains, hx, Bool.or_false]
              cases hq : old.isPrefixOf (c :: x) with
              | false => rfl
              | true =>
                obtain ⟨u, hu⟩ := List.isPrefixOf_iff_prefix.1 hq
                have : old.isPrefixOf (c :: cs) = true := by
                  rw [List.isPrefixOf_iff_prefix, hcs, hjoin]
                  cases xs with
                  | nil => exact ⟨u, by simpa [stringsJoin] using hu⟩
                  | cons y ys =>
                    refine ⟨u ++ old ++ stringsJoin (y :: ys) old, ?_⟩
                    rw [stringsJoin_cons_cons, ← hu]
                    simp
                rw [hp] at this
                cases this
            · exact h3 y (by simp [hy])
          · rw [replaceScan_miss _ _ _ _ hp]
            simpa using h4

/-! ## Lemmas on the greedy repetition -/

theorem matchStar_cons_in {α : Type} (cls : Char → Bool) (k : Str → Str → Option α)
    (acc : Str) (c : Char) (cs : Str) (hc : cls c = true) :
    matchStar cls k acc (c :: cs)
      = (matchStar cls k (acc ++ [c]) cs).orElse (fun _ => k acc (c :: cs)) := by
  rw [matchStar, if_pos hc]

theorem matchStar_cons_out {α : Type} (cls : Char → Bool) (k : Str → Str → Option α)
    (acc : Str) (c : Char) (cs : Str) (hc : cls c = false) :
    matchStar cls k acc (c :: cs) = k acc (c :: cs) := by
  rw [matchStar, if_neg (by simp [hc])]

/-- Soundness: a successful repetition consumed a run inside the class and handed the rest
to the continuation. -/
theorem matchStar_sound {α : Type} (cls : Char → Bool) (k : Str → Str → Option α)
    (s acc : Str) (r : α) (h : matchStar cls k acc s = some r) :
    ∃ a b, s = a ++ b ∧ (∀ c ∈ a, cls c = true) ∧ k (acc ++ a) b = some r := by
  induction s generalizing acc with
  | nil => exact ⟨[], [], rfl, by simp, by simpa [matchStar] using h⟩
  | cons c cs ih =>
    unfold matchStar at h
    by_cases hc : cls c = true
    · rw [if_pos hc] at h
      cases hin : matchStar cls k (acc ++ [c]) cs with
      | some r' =>
        rw [hin] at h
        simp only [Option.orElse, Option.some.injEq] at h
        subst h
        obtain ⟨a, b, h1, h2, h3⟩ := ih _ hin
        refine ⟨c :: a, b, by simp [h1], ?_, ?_⟩
        · intro x hx
          rcases List.mem_cons.1 hx with hx | hx
          · rw [hx]; exact hc
          · exact h2 x hx
        · simpa using h3
      | none =>
        rw [hin] at h
        simp only [Option.orElse] at h
        exact ⟨[], c :: cs, rfl, by simp, by simpa using h⟩
    · rw [if_neg hc] at h
      exact ⟨[], c :: cs, rfl, by simp, by simpa using h⟩

/-- Completeness: when some run inside the class is followed by a text the continuation
accepts, the repetition succeeds. -/
theorem matchStar_complete {α : Type} (cls : Char → Bool) (k : Str → Str → Option α)
    (a b acc : Str) (ha : ∀ c ∈ a, cls c = true) (hk : (k (acc ++ a) b).isSome = true) :
    (matchStar cls k acc (a ++ b)).isSome = true := by
  induction a generalizing acc with
  | nil =>
    simp only [List.append_nil, List.nil_append] at hk ⊢
    cases b with
    | nil => simpa [matchStar] using hk
    | cons c cs =>
      unfold matchStar
      by_cases hc : cls c = true
      · rw [if_pos hc]
        cases matchStar cls k (acc ++ [c]) cs with
        | some r => simp [Option.orElse]
        | none => simpa [Option.orElse] using hk
      · rw [if_neg hc]; exact hk
  | cons c cs ih =>
    have hc : cls c = true := ha c (by simp)
    have hin := ih (acc ++ [c]) (fun x hx => ha x (by simp [hx])) (by simpa using hk)
    simp only [List.cons_append, matchStar, hc, if_true]
    cases hm : matchStar cls k (acc ++ [c]) (cs ++ b) with
    | some r => simp [Option.orElse]
    | none => rw [hm] at hin; cases hin

/-- When the continuation rejects after every non-empty run, the repetition falls back to
the empty run.  The text after the run `a` is empty or starts outside the class. -/
theorem matchStar_fallback {α : Type} (cls : Char → Bool) (k : Str → Str → Option α)
    (a b acc : Str) (ha : ∀ c ∈ a, cls c = true) (hb : ∀ c ∈ b.head?, cls c = false)
    (hlonger : ∀ x y, a = x ++ y → x ≠ [] → k (acc ++ x) (y ++ b) = none) :
    matchStar cls k acc (a ++ b) = k acc (a ++ b) := by
  induction a generalizing acc with
  | nil =>
    cases b with
    | nil => simp [matchStar]
    | cons c cs =>
      have hc : cls c = false := hb c (by simp)
      simp [matchStar, hc]
  | cons c cs ih =>
    have hc : cls c = true := ha c (by simp)
    have hin := ih (acc ++ [c]) (fun x hx => ha x (by simp [hx]))
      (fun x y hxy hx => by
        have := hlonger (c :: x) y (by simp [hxy]) (by simp)
        simpa using this)
    have hnone : k (acc ++ [c]) (cs ++ b) = none := by
      have := hlonger [c] cs (by simp) (by simp)
      simpa using this
    rw [List.cons_append, matchStar_cons_in _ _ _ _ _ hc, hin, hnone]
    rfl

/-- When the continuation rejects after every run, the repetition fails. -/
theorem matchStar_none {α : Type} (cls : Char → Bool) (k : Str → Str → Option α)
    (a b acc : Str) (ha : ∀ c ∈ a, cls c = true) (hb : ∀ c ∈ b.head?, cls c = false)
    (hall : ∀ x y, a = x ++ y → k (acc ++ x) (y ++ b) = none) :
    matchStar cls k acc (a ++ b) = none := by
  rw [matchStar_fallback cls k a b acc ha hb (fun x y hxy _ => hall x y hxy)]
  simpa using hall [] a rfl

/-- The preferred split: when the continuation accepts after the run `a1` and rejects
after every longer run, the repetition returns what the continuation returns after `a1`.
The text after the whole run `a1 ++ a2` is empty or starts outside the class. -/
theorem matchStar_preferred {α : Type} (cls : Char → Bool) (k : Str → Str → Option α)
    (a1 a2 b acc : Str) (r : α) (h1 : ∀ c ∈ a1, cls c = true) (h2 : ∀ c ∈ a2, cls c = true)
    (hb : ∀ c ∈ b.head?, cls c = false)
    (hk : k (acc ++ a1) (a2 ++ b) = some r)
    (hlonger : ∀ x y, a2 = x ++ y → x ≠ [] → k (acc ++ a1 ++ x) (y ++ b) = none) :
    matchStar cls k acc (a1 ++ (a2 ++ b)) = some r := by
  induction a1 generalizing acc with
  | nil =>
    simp only [List.append_nil, List.nil_append] at hk hlonger ⊢
    rw [matchStar_fallback cls k a2 b acc h2 hb hlonger, hk]
  | cons c cs ih =>
    have hc : cls c = true := h1 c (by simp)
    have hin := ih (acc ++ [c]) (fun x hx => h1 x (by simp [hx])) (by simpa using hk)
      (fun x y hxy hx => by simpa using hlonger x y hxy hx)
    rw [List.cons_append, matchStar_cons_in _ _ _ _ _ hc, hin]
    rfl

/-! ## The search and the language of the pattern agree -/

theorem ne_class (x c : Char) : ((c != x) = true) ↔ c ≠ x := by simp

/-- Completeness of the anchored search: an instance of the pattern at the start of the
text is found (possibly with another, preferred, split). -/
theorem matchHeading_complete (h post : Str) (hh : IsHeadingText h) :
    (matchHeading (h ++ post)).isSome = true := by
  obtain ⟨d, a, id, b, title, d2, hd, hd2, ha, hid, hb, ht, htitle, rfl⟩ := hh
  simp only [List.cons_append, List.append_assoc, matchHeading, hd, if_true]
  apply matchStar_complete _ _ a _ [] (fun c hc => (ne_class _ _).2 (ha c hc))
  simp only [matchId]
  apply matchStar_complete _ _ id _ [] (fun c hc => (ne_class _ _).2 (hid c hc))
  simp only [matchAfterId]
  apply matchStar_complete _ _ b _ [] (fun c hc => (ne_class _ _).2 (hb c hc))
  simp only [matchTitle]
  cases title with
  | nil => exact absurd rfl ht
  | cons t0 ts =>
    have h0 : (t0 != '<') = true := (ne_class _ _).2 (htitle t0 (by simp))
    simp only [List.cons_append, matchPlus, h0, if_true]
    apply matchStar_complete _ _ ts _ [t0]
      (fun c hc => (ne_class _ _).2 (htitle c (by simp [hc])))
    simp [matchClose, hd2]

theorem matchClose_some (level id title s : Str) (r : HeadingMatch × Str)
    (h : matchClose level id title s = some r) :
    ∃ d2 rest, isLevelDigit d2 = true ∧ s = '<' :: '/' :: 'h' :: d2 :: '>' :: rest
      ∧ r = (⟨level, id, title⟩, rest) := by
  unfold matchClose at h
  split at h
  · rename_i d2 rest
    by_cases hd2 : isLevelDigit d2 = true
    · rw [if_pos hd2] at h
      exact ⟨d2, rest, hd2, rfl, (Option.some.inj h).symm⟩
    · rw [if_neg hd2] at h; cases h
  · cases h

theorem matchTitle_some (level id s : Str) (r : HeadingMatch × Str)
    (h : matchTitle level id s = some r) :
    ∃ title d2 rest, title ≠ [] ∧ (∀ c ∈ title, c ≠ '<') ∧ isLevelDigit d2 = true
      ∧ s = '>' :: (title ++ '<' :: '/' :: 'h' :: d2 :: '>' :: rest)
      ∧ r = (⟨level, id, title⟩, rest) := by
  unfold matchTitle at h
  split at h
  · rename_i s1
    unfold matchPlus at h
    split at h
    · cases h
    · rename_i t0 ts
      by_cases h0 : (t0 != '<') = true
      · rw [if_pos h0] at h
        obtain ⟨t, s2, hts, ht, h⟩ := matchStar_sound _ _ _ _ _ h
        obtain ⟨d2, rest, hd2, hs2, hr⟩ := matchClose_some _ _ _ _ _ h
        refine ⟨t0 :: t, d2, rest, by simp, ?_, hd2, by simp [hts, hs2], by simpa using hr⟩
        intro c hc
        rcases List.mem_cons.1 hc with hc | hc
        · rw [hc]; exact (ne_class _ _).1 h0
        · exact (ne_class _ _).1 (ht c hc)
      · rw [if_neg h0] at h; cases h
  · cases h

theorem matchAfterId_some (level id s : Str) (r : HeadingMatch × Str)
    (h : matchAfterId level id s = some r) :
    ∃ b title d2 rest, (∀ c ∈ b, c ≠ '>') ∧ title ≠ [] ∧ (∀ c ∈ title, c ≠ '<')
      ∧ isLevelDigit d2 = true
      ∧ s = '"' :: (b ++ '>' :: (title ++ '<' :: '/' :: 'h' :: d2 :: '>' :: rest))
      ∧ r = (⟨level, id, title⟩, rest) := by
  unfold matchAfterId at h
  split at h
  · rename_i s1
    obtain ⟨b, s2, hs1, hb, h⟩ := matchStar_sound _ _ _ _ _ h
    obtain ⟨title, d2, rest, ht, htitle, hd2, hs2, hr⟩ := matchTitle_some _ _ _ _ h
    exact ⟨b, title, d2, rest, fun c hc => (ne_class _ _).1 (hb c hc), ht, htitle, hd2,
      by simp [hs1, hs2], hr⟩
  · cases h

theorem matchId_some (level s : Str) (r : HeadingMatch × Str)
    (h : matchId level s = some r) :
    ∃ id b title d2 rest, (∀ c ∈ id, c ≠ '"') ∧ (∀ c ∈ b, c ≠ '>') ∧ title ≠ []
      ∧ (∀ c ∈ title, c ≠ '<') ∧ isLevelDigit d2 = true
      ∧ s = 'i' :: 'd' :: '=' :: '"' :: (id ++ '"' :: (b ++ '>' ::
            (title ++ '<' :: '/' :: 'h' :: d2 :: '>' :: rest)))
      ∧ r = (⟨level, id, title⟩, rest) := by
  unfold matchId at h
  split at h
  · rename_i s1
    obtain ⟨id, s2, hs1, hid, h⟩ := matchStar_sound _ _ _ _ _ h
    obtain ⟨b, title, d2, rest, hb, ht, htitle, hd2, hs2, hr⟩ := matchAfterId_some _ _ _ _ h
    exact ⟨id, b, title, d2, rest, fun c hc => (ne_class _ _).1 (hid c hc), hb, ht, htitle,
      hd2, by simp [hs1, hs2], by simpa using hr⟩
  · cases h

/-- Soundness of the anchored search: what it consumes is an instance of the pattern, and
the captures are the level digit, the id run and the title run of that instance. -/
theorem matchHeading_sound (s rest : Str) (m : HeadingMatch)
    (h : matchHeading s = some (m, rest)) :
    ∃ d a id b title d2, isLevelDigit d = true ∧ isLevelDigit d2 = true
      ∧ (∀ c ∈ a, c ≠ '>') ∧ (∀ c ∈ id, c ≠ '"') ∧ (∀ c ∈ b, c ≠ '>')
      ∧ title ≠ [] ∧ (∀ c ∈ title, c ≠ '<')
      ∧ s = '<' :: 'h' :: d :: (a ++ 'i' :: 'd' :: '=' :: '"' :: (id ++ '"' :: (b ++ '>' ::
            (title ++ ['<', '/', 'h', d2, '>'])))) ++ rest
      ∧ m = ⟨[d], id, title⟩ := by
  unfold matchHeading at h
  split at h
  · rename_i d s1
    by_cases hd : isLevelDigit d = true
    · rw [if_pos hd] at h
      obtain ⟨a, s2, hs1, ha, h⟩ := matchStar_sound _ _ _ _ _ h
      obtain ⟨id, b, title, d2, rest', hid, hb, ht, htitle, hd2, hs2, hr⟩ :=
        matchId_some _ _ _ h
      simp only [Prod.mk.injEq] at hr
      obtain ⟨hm, hrest⟩ := hr
      subst hrest
      exact ⟨d, a, id, b, title, d2, hd, hd2, fun c hc => (ne_class _ _).1 (ha c hc), hid, hb,
        ht, htitle, by simp [hs1, hs2], hm⟩
    · rw [if_neg hd] at h; cases h
  · cases h

theorem findAllScan_nil_none (s : Str) (n : Nat) (h : findAllScan n s = []) :
    ∀ t, t <:+ s.drop n → matchHeading t = none := by
  induction s generalizing n with
  | nil =>
    intro t ht
    have : t = [] := by simpa using ht
    subst this
    rfl
  | cons c cs ih =>
    cases n with
    | succ k =>
      simp only [findAllScan] at h
      simpa using ih k h
    | zero =>
      cases hm : matchHeading (c :: cs) with
      | some r =>
        obtain ⟨m, rest⟩ := r
        simp [findAllScan, hm] at h
      | none =>
        simp only [findAllScan, hm] at h
        intro t ht
        rcases List.suffix_cons_iff.1 (by simpa using ht) with ht | ht
        · rw [ht]; exact hm
        · exact ih 0 h t (by simpa using ht)

theorem findAllScan_none_nil (s : Str) (n : Nat)
    (h : ∀ t, t <:+ s → matchHeading t = none) : findAllScan n s = [] := by
  induction s generalizing n with
  | nil => cases n <;> rfl
  | cons c cs ih =>
    have hcs : ∀ t, t <:+ cs → matchHeading t = none :=
      fun t ht => h t (List.suffix_cons_iff.2 (Or.inr ht))
    cases n with
    | succ k => simpa [findAllScan] using ih k hcs
    | zero =>
      have hm := h (c :: cs) (List.suffix_refl _)
      simpa [findAllScan, hm] using ih 0 hcs

/-- The scan finds a heading exactly when the fragment contains an instance of the
pattern. -/
theorem containsPatternInstance_iff (html : Str) :
    ContainsPatternInstance html ↔ findAllStringSubmatch html ≠ [] := by
  constructor
  · rintro ⟨pre, h, post, hh, rfl⟩ hnil
    have hnone := findAllScan_nil_none _ 0 hnil (h ++ post) (by simp)
    have hsome := matchHeading_complete h post hh
    rw [hnone] at hsome
    cases hsome
  · intro hne
    by_contra hc
    apply hne
    apply findAllScan_none_nil
    intro t ht
    cases hm : matchHeading t with
    | none => rfl
    | some r =>
      exfalso
      obtain ⟨m, rest⟩ := r
      obtain ⟨d, a, id, b, title, d2, hd, hd2, ha, hid, hb, htne, htitle, hs, -⟩ :=
        matchHeading_sound t rest m hm
      obtain ⟨pre, hpre⟩ := ht
      exact hc ⟨pre, _, rest, ⟨d, a, id, b, title, d2, hd, hd2, ha, hid, hb, htne, htitle, rfl⟩,
        by rw [← hpre, hs]; simp⟩

/-! ## The scan on fragments with plain headings -/

theorem matchHeading_shape (t : Str) (r : HeadingMatch × Str) (h : matchHeading t = some r) :
    ∃ d rest, t = '<' :: 'h' :: d :: rest ∧ isLevelDigit d = true := by
  unfold matchHeading at h
  split at h
  · rename_i d rest
    by_cases hd : isLevelDigit d = true
    · exact ⟨d, rest, rfl, hd⟩
    · rw [if_neg hd] at h; cases h
  · cases h

theorem findAllScan_skip (n : Nat) (s : Str) :
    findAllScan n s = findAllScan 0 (s.drop n) := by
  induction s generalizing n with
  | nil => cases n <;> rfl
  | cons c cs ih =>
    cases n with
    | zero => rfl
    | succ k => simp only [findAllScan, List.drop_succ_cons]; exact ih k

theorem findAllScan_cons_none (c : Char) (cs : Str) (h : matchHeading (c :: cs) = none) :
    findAllScan 0 (c :: cs) = findAllScan 0 cs := by
  simp [findAllScan, h]

theorem findAllScan_cons_some (c : Char) (cs rest : Str) (m : HeadingMatch)
    (h : matchHeading (c :: cs) = some (m, rest)) :
    findAllScan 0 (c :: cs) = m :: findAllScan ((c :: cs).length - rest.length - 1) cs := by
  simp [findAllScan, h]

/-- After a match at the start of the text the scan goes on behind it. -/
theorem findAllScan_match (e rest : Str) (m : HeadingMatch)
    (h : matchHeading (e ++ rest) = some (m, rest)) :
    findAllScan 0 (e ++ rest) = m :: findAllScan 0 rest := by
  cases e with
  | nil =>
    exfalso
    obtain ⟨d, a, id, b, title, d2, -, -, -, -, -, -, -, hs, -⟩ := matchHeading_sound _ _ _ h
    have := congrArg List.length hs
    simp at this
    omega
  | cons c cs =>
    rw [List.cons_append] at h ⊢
    rw [findAllScan_cons_some _ _ _ _ h, findAllScan_skip]
    have hlen : (c :: (cs ++ rest)).length - rest.length - 1 = cs.length := by
      simp only [List.length_cons, List.length_append]
      omega
    rw [hlen]
    simp

/-- A filler text without heading opening adds nothing to the scan. -/
theorem findAllScan_filler (f X : Str) (hf : hasHeadingOpen f = false)
    (hX : ∀ c ∈ X.head?, c = '<') : findAllScan 0 (f ++ X) = findAllScan 0 X := by
  induction f with
  | nil => rfl
  | cons c f' ih =>
    simp only [hasHeadingOpen, Bool.or_eq_false_iff] at hf
    have hnone : matchHeading (c :: (f' ++ X)) = none := by
      cases hm : matchHeading (c :: (f' ++ X)) with
      | none => rfl
      | some r =>
        exfalso
        obtain ⟨d, rest, hs, hd⟩ := matchHeading_shape _ _ hm
        simp only [List.cons.injEq] at hs
        obtain ⟨hc, hs⟩ := hs
        subst hc
        rcases f' with _ | ⟨c2, _ | ⟨c3, f''⟩⟩
        · simp only [List.nil_append] at hs
          rw [hs] at hX
          exact absurd (hX 'h' (by simp)) (by decide)
        · simp only [List.cons_append, List.nil_append, List.cons.injEq] at hs
          rw [hs.2] at hX
          have := hX d (by simp)
          rw [this] at hd
          exact absurd hd (by decide)
        · simp only [List.cons_append, List.cons.injEq] at hs
          obtain ⟨h2, h3, -⟩ := hs
          subst h2 h3
          have h1 : isLevelDigit c3 = false := hf.1
          rw [h1] at hd
          cases hd
    rw [List.cons_append, findAllScan_cons_none _ _ hnone]
    exact ih hf.2

/-! ## The pattern on the three kinds of heading tags -/

theorem matchClose_head (level id title : Str) (c : Char) (rest : Str) (hc : c ≠ '<') :
    matchClose level id title (c :: rest) = none := by
  cases hm : matchClose level id title (c :: rest) with
  | none => rfl
  | some r =>
    obtain ⟨d2, rest', -, hs, -⟩ := matchClose_some _ _ _ _ _ hm
    simp only [List.cons.injEq] at hs
    exact absurd hs.1 hc

theorem matchAfterId_head (level id : Str) (c : Char) (rest : Str) (hc : c ≠ '"') :
    matchAfterId level id (c :: rest) = none := by
  cases hm : matchAfterId level id (c :: rest) with
  | none => rfl
  | some r =>
    obtain ⟨b, title, d2, rest', -, -, -, -, hs, -⟩ := matchAfterId_some _ _ _ _ hm
    simp only [List.cons.injEq] at hs
    exact absurd hs.1 hc

theorem matchTitle_head (level id : Str) (c : Char) (rest : Str) (hc : c ≠ '>') :
    matchTitle level id (c :: rest) = none := by
  cases hm : matchTitle level id (c :: rest) with
  | none => rfl
  | some r =>
    obtain ⟨title, d2, rest', -, -, -, hs, -⟩ := matchTitle_some _ _ _ _ hm
    simp only [List.cons.injEq] at hs
    exact absurd hs.1 hc

/-- A text that starts with `id="` once a `>` is reached starts with `id="` before it. -/
theorem starts_idOpen (y F R : Str) (h : y ++ '>' :: F = 'i' :: 'd' :: '=' :: '"' :: R) :
    ∃ y', y = idOpen ++ y' := by
  rcases y with _ | ⟨y1, _ | ⟨y2, _ | ⟨y3, _ | ⟨y4, y'⟩⟩⟩⟩
  · simp at h
  · simp at h
  · simp at h
  · simp at h
  · simp only [List.cons_append, List.cons.injEq] at h
    obtain ⟨h1, h2, h3, h4, -⟩ := h
    subst h1 h2 h3 h4
    exact ⟨y', rfl⟩

/-- When the continuation of the first repetition accepts, the text starts with `id="`. -/
theorem matchId_starts (level y F : Str) (r : HeadingMatch × Str)
    (h : matchId level (y ++ '>' :: F) = some r) : ∃ y', y = idOpen ++ y' := by
  obtain ⟨id, b, title, d2, rest, -, -, -, -, -, hs, -⟩ := matchId_some _ _ _ h
  exact starts_idOpen y F _ hs

/-- No `id="` starts after the first character of `id="` followed by a text without it. -/
theorem idOpen_later (T x y : Str) (hT : stringsContains T idOpen = false) (hx : x ≠ [])
    (h : x ++ (idOpen ++ y) = idOpen ++ T) : False := by
  rcases x with _ | ⟨x1, _ | ⟨x2, _ | ⟨x3, _ | ⟨x4, x'⟩⟩⟩⟩
  · exact hx rfl
  · simp [idOpen] at h
  · simp [idOpen] at h
  · simp [idOpen] at h
  · simp only [idOpen, List.cons_append, List.cons.injEq, List.nil_append] at h
    have hcontains : stringsContains T idOpen = true :=
      (stringsContains_iff _ _).2 ⟨x', y, by rw [← h.2.2.2.2]; simp [idOpen]⟩
    rw [hT] at hcontains
    cases hcontains

theorem not_mem_class (x : Char) (l : Str) (h : x ∉ l) : ∀ c ∈ l, (c != x) = true := by
  intro c hc
  exact (ne_class _ _).2 (fun hcx => h (hcx ▸ hc))

/-- The part of the pattern after the opening tag, on a non-empty title run followed by a
closing tag. -/
theorem matchTitle_plain (level id title : Str) (closing : Char) (R : Str)
    (hd : isLevelDigit closing = true) (ht : title ≠ []) (htitle : '<' ∉ title) :
    matchTitle level id ('>' :: (title ++ '<' :: '/' :: 'h' :: closing :: '>' :: R))
      = some (⟨level, id, title⟩, R) := by
  cases title with
  | nil => exact absurd rfl ht
  | cons t0 ts =>
    have h0 : (t0 != '<') = true := not_mem_class _ _ htitle t0 (by simp)
    simp only [matchTitle, List.cons_append, matchPlus, h0, if_true]
    have := matchStar_preferred (fun c => c != '<')
      (fun title s => matchClose level id title s) ts []
      ('<' :: '/' :: 'h' :: closing :: '>' :: R) [t0] (⟨level, id, t0 :: ts⟩, R)
      (fun c hc => not_mem_class _ _ htitle c (by simp [hc])) (by simp) (by simp)
      (by simp [matchClose, hd])
      (by
        intro x y hxy hx
        have := List.append_eq_nil.1 hxy.symm
        exact absurd this.1 hx)
    simpa using this

/-- The pattern on a plain heading: exactly the element is matched, with its level digit,
its id and its title as captures. -/
theorem matchHeading_plain (digit : Char) (before id after title : Str) (closing : Char)
    (follow R : Str) (h : (Element.plain digit before id after title closing).admissible follow) :
    matchHeading ((Element.plain digit before id after title closing).text ++ R)
      = some (⟨[digit], id, title⟩, R) := by
  obtain ⟨hd, hd2, hbefore, hidq, hidg, hafter, hlast, ht, htitle⟩ := h
  have htitleM := matchTitle_plain [digit] id title closing R hd2 ht htitle
  have hafterM : matchAfterId [digit] id
      ('"' :: (after ++ '>' :: (title ++ '<' :: '/' :: 'h' :: closing :: '>' :: R)))
        = some (⟨[digit], id, title⟩, R) := by
    simp only [matchAfterId]
    have := matchStar_preferred (fun c => c != '>')
      (fun _ s => matchTitle [digit] id s) after []
      ('>' :: (title ++ '<' :: '/' :: 'h' :: closing :: '>' :: R)) []
      (⟨[digit], id, title⟩, R) (not_mem_class _ _ hafter) (by simp) (by simp)
      (by simpa using htitleM)
      (by
        intro x y hxy hx
        have := List.append_eq_nil.1 hxy.symm
        exact absurd this.1 hx)
    simpa using this
  have hidM : matchId [digit] (idOpen ++ (id ++ '"' ::
      (after ++ '>' :: (title ++ '<' :: '/' :: 'h' :: closing :: '>' :: R))))
        = some (⟨[digit], id, title⟩, R) := by
    simp only [idOpen, List.cons_append, List.nil_append, matchId]
    have := matchStar_preferred (fun c => c != '"')
      (fun id s => matchAfterId [digit] id s) id []
      ('"' :: (after ++ '>' :: (title ++ '<' :: '/' :: 'h' :: closing :: '>' :: R))) []
      (⟨[digit], id, title⟩, R) (not_mem_class _ _ hidq) (by simp) (by simp)
      (by simpa using hafterM)
      (by
        intro x y hxy hx
        have := List.append_eq_nil.1 hxy.symm
        exact absurd this.1 hx)
    simpa using this
  have hrun : ∀ c ∈ idOpen ++ (id ++ '"' :: after), (c != '>') = true := by
    intro c hc
    rcases List.mem_append.1 hc with hc | hc
    · simp only [idOpen, List.mem_cons, List.mem_singleton, List.not_mem_nil, or_false] at hc
      rcases hc with h | h | h | h <;> rw [h] <;> decide
    rcases List.mem_append.1 hc with hc | hc
    · exact not_mem_class _ _ hidg c hc
    rcases List.mem_cons.1 hc with h | hc
    · rw [h]; decide
    · exact not_mem_class _ _ hafter c hc
  have := matchStar_preferred (fun c => c != '>') (fun _ s => matchId [digit] s) before
    (idOpen ++ (id ++ '"' :: after))
    ('>' :: (title ++ '<' :: '/' :: 'h' :: closing :: '>' :: R)) []
    (⟨[digit], id, title⟩, R) (not_mem_class _ _ hbefore) hrun (by simp)
    (by simpa using hidM)
    (by
      intro x y hxy hx
      cases hm : matchId [digit]
          (y ++ '>' :: (title ++ '<' :: '/' :: 'h' :: closing :: '>' :: R)) with
      | none => simpa using hm
      | some r =>
        exfalso
        obtain ⟨y', hy⟩ := matchId_starts _ _ _ _ hm
        rw [hy] at hxy
        exact idOpen_later _ x y' hlast hx hxy.symm)
  simp only [Element.text, matchHeading, List.cons_append, hd, if_true]
  simpa using this

/-- The pattern on a bare tag: no match, whatever follows. -/
theorem matchHeading_bare (digit : Char) (tag follow R : Str)
    (h : (Element.bare digit tag).admissible follow) :
    matchHeading ((Element.bare digit tag).text ++ R) = none := by
  obtain ⟨hd, htag, -, hnoId⟩ := h
  have := matchStar_none (fun c => c != '>') (fun _ s => matchId [digit] s) tag ('>' :: R) []
    (not_mem_class _ _ htag) (by simp)
    (by
      intro x y hxy
      cases hm : matchId [digit] (y ++ '>' :: R) with
      | none => simpa using hm
      | some r =>
        exfalso
        obtain ⟨y', hy⟩ := matchId_starts _ _ _ _ hm
        have hcontains : stringsContains tag idOpen = true :=
          (stringsContains_iff _ _).2 ⟨x, y', by rw [hxy, hy]; simp⟩
        rw [hnoId] at hcontains
        cases hcontains)
  simp only [Element.text, matchHeading, List.cons_append, hd, if_true]
  simpa using this

/-- The part of the pattern after the opening tag fails on a text run that is empty, or
runs to the end of the text, or is followed by a `<` that starts no closing heading tag. -/
theorem matchTitle_nested (level id text follow : Str) (htext : '<' ∉ text)
    (hfollow : follow = [] ∨ (follow.head? = some '<'
      ∧ (text = [] ∨ closesHeading follow = false))) :
    matchTitle level id ('>' :: (text ++ follow)) = none := by
  have hb : ∀ c ∈ follow.head?, (c != '<') = false := by
    intro c hc
    rcases hfollow with h | ⟨h, -⟩
    · rw [h] at hc; simp at hc
    · rw [h] at hc
      simp only [Option.mem_def, Option.some.injEq] at hc
      rw [← hc]; decide
  cases text with
  | nil =>
    simp only [List.nil_append, matchTitle]
    cases follow with
    | nil => rfl
    | cons c cs =>
      have hc : (c != '<') = false := hb c (by simp)
      simp [matchPlus, hc]
  | cons t0 ts =>
    have h0 : (t0 != '<') = true := not_mem_class _ _ htext t0 (by simp)
    simp only [matchTitle, List.cons_append, matchPlus, h0, if_true]
    apply matchStar_none _ _ ts follow [t0]
      (fun c hc => not_mem_class _ _ htext c (by simp [hc])) hb
    intro x y hxy
    cases y with
    | cons y0 ys =>
      refine matchClose_head _ _ _ _ _ (fun hy => htext ?_)
      rw [hxy, ← hy]
      simp
    | nil =>
      cases hm : matchClose level id ([t0] ++ x) ([] ++ follow) with
      | none => rfl
      | some r =>
        exfalso
        obtain ⟨d2, rest, hd2, hs, -⟩ := matchClose_some _ _ _ _ _ hm
        simp only [List.nil_append] at hs
        rcases hfollow with h | ⟨-, h | h⟩
        · rw [h] at hs; cases hs
        · cases h
        · rw [hs] at h
          simp [closesHeading, hd2] at h

theorem first_quote (l : Str) (h : '"' ∈ l) : ∃ p s, l = p ++ '"' :: s ∧ '"' ∉ p := by
  induction l with
  | nil => cases h
  | cons c cs ih =>
    by_cases hc : c = '"'
    · exact ⟨[], cs, by simp [hc], by simp⟩
    · have hcs : '"' ∈ cs := by
        rcases List.mem_cons.1 h with h | h
        · exact absurd h.symm hc
        · exact h
      obtain ⟨p, s, h1, h2⟩ := ih hcs
      refine ⟨c :: p, s, by simp [h1], ?_⟩
      simp only [List.mem_cons, not_or]
      exact ⟨fun h => hc h.symm, h2⟩

/-- After an `id="` whose value is closed inside the opening tag, the rest of the pattern
fails when the part after the tag fails. -/
theorem matchId_closed_none (level y F : Str) (hquote : '"' ∈ y) (hgt : '>' ∉ y)
    (hT : ∀ id, matchTitle level id ('>' :: F) = none) :
    matchId level (idOpen ++ (y ++ '>' :: F)) = none := by
  obtain ⟨p, s, hps, hp⟩ := first_quote y hquote
  have hs : '>' ∉ s := fun h => hgt (by rw [hps]; simp [h])
  have hafter : ∀ id, matchAfterId level id ('"' :: (s ++ '>' :: F)) = none := by
    intro id
    simp only [matchAfterId]
    apply matchStar_none _ _ s ('>' :: F) [] (not_mem_class _ _ hs) (by simp)
    intro x z hxz
    cases z with
    | nil => simpa using hT id
    | cons z0 zs =>
      refine matchTitle_head _ _ _ _ (fun hz => hs ?_)
      rw [hxz, ← hz]
      simp
  simp only [idOpen, List.cons_append, List.nil_append, matchId]
  rw [hps, List.append_assoc]
  apply matchStar_none _ _ p ('"' :: (s ++ '>' :: F)) [] (not_mem_class _ _ hp) (by simp)
  intro x z hxz
  cases z with
  | nil => simpa using hafter ([] ++ x)
  | cons z0 zs =>
    refine matchAfterId_head _ _ _ _ (fun hz => hp ?_)
    rw [hxz, ← hz]
    simp

/-- The pattern on a heading whose text run is empty or followed by nested markup: no
match, whichever `id="` of the opening tag is tried. -/
theorem matchHeading_nested (digit : Char) (before id after text follow : Str)
    (h : (Element.nested digit before id after text).admissible follow) :
    matchHeading ((Element.nested digit before id after text).text ++ follow) = none := by
  obtain ⟨hd, hbefore, -, hidq, hidg, -, hafter, -, hlast, htext, hfollow⟩ := h
  have hT : ∀ id', matchTitle [digit] id' ('>' :: (text ++ follow)) = none :=
    fun id' => matchTitle_nested [digit] id' text follow htext hfollow
  have htag : '>' ∉ before ++ idOpen ++ (id ++ '"' :: after) := by
    simp only [List.mem_append, List.mem_cons, not_or, idOpen, List.not_mem_nil, or_false]
    exact ⟨⟨hbefore, by decide, by decide, by decide, by decide⟩, hidg, by decide, hafter⟩
  have := matchStar_none (fun c => c != '>') (fun _ s => matchId [digit] s)
    (before ++ idOpen ++ (id ++ '"' :: after)) ('>' :: (text ++ follow)) []
    (not_mem_class _ _ htag) (by simp)
    (by
      intro x y hxy
      cases hm : matchId [digit] (y ++ '>' :: (text ++ follow)) with
      | none => simpa using hm
      | some r =>
        exfalso
        obtain ⟨y', hy⟩ := matchId_starts _ _ _ _ hm
        have hgt : '>' ∉ y' := fun hmem => htag (by rw [hxy, hy]; simp [hmem])
        have hquote : '"' ∈ y' := by
          rw [hy, List.append_assoc] at hxy
          rcases List.append_eq_append_iff.1 hxy with ⟨v, hv1, hv2⟩ | ⟨v, hv1, hv2⟩
          · by_cases hvnil : v = []
            · subst hvnil
              simp only [List.nil_append] at hv2
              have := List.append_cancel_left hv2
              rw [← this]
              simp
            · exact absurd hv2.symm (fun h => idOpen_later _ v y' hlast hvnil h)
          · have hcount := congrArg (List.count '"') hv2
            simp only [idOpen, List.count_append, List.count_cons, List.count_nil,
              List.cons_append, List.nil_append] at hcount
            have : 0 < List.count '"' y' := by
              simp only [beq_self_eq_true, if_true] at hcount
              simp at hcount
              omega
            exact List.count_pos_iff.1 this
        rw [hy, List.append_assoc, matchId_closed_none _ _ _ hquote hgt hT] at hm
        cases hm)
  simp only [Element.text, matchHeading, List.cons_append, List.append_assoc, hd, if_true]
  simpa using this

/-- A run without `<` adds nothing to the scan. -/
theorem findAllScan_run (run R : Str) (hrun : '<' ∉ run) :
    findAllScan 0 (run ++ R) = findAllScan 0 R := by
  induction run with
  | nil => rfl
  | cons c cs ih =>
    have hnone : matchHeading (c :: (cs ++ R)) = none := by
      cases hm : matchHeading (c :: (cs ++ R)) with
      | none => rfl
      | some r =>
        exfalso
        obtain ⟨d, rest, hs, -⟩ := matchHeading_shape _ _ hm
        simp only [List.cons.injEq] at hs
        exact hrun (by simp [hs.1])
    rw [List.cons_append, findAllScan_cons_none _ _ hnone]
    exact ih (fun h => hrun (by simp [h]))

theorem Element.text_head (e : Element) (R : Str) : ∀ c ∈ (e.text ++ R).head?, c = '<' := by
  intro c hc
  cases e <;> simpa [Element.text] using hc.symm

/-- The scan on a heading tag followed by the rest of its fragment: the captures of a plain
heading and then the scan of the rest, or the scan of the rest alone. -/
theorem findAllScan_element (e : Element) (R : Str) (h : e.admissible R) :
    findAllScan 0 (e.text ++ R) = e.captures.toList ++ findAllScan 0 R := by
  cases e with
  | plain digit before id after title closing =>
    rw [findAllScan_match _ _ _ (matchHeading_plain digit before id after title closing R R h)]
    rfl
  | bare digit tag =>
    have hnone := matchHeading_bare digit tag R R h
    obtain ⟨hd, -, hlt, -⟩ := h
    simp only [Element.text, List.cons_append] at hnone ⊢
    rw [findAllScan_cons_none _ _ hnone]
    have hrun : '<' ∉ 'h' :: digit :: (tag ++ ['>']) := by
      simp only [List.mem_cons, List.mem_append, List.mem_singleton, not_or, List.not_mem_nil,
        or_false]
      refine ⟨by decide, ?_, hlt, by decide⟩
      intro hdig
      rw [← hdig] at hd
      exact absurd hd (by decide)
    have := findAllScan_run _ R hrun
    simpa [Element.captures] using this
  | nested digit before id after text =>
    have hnone := matchHeading_nested digit before id after text R h
    obtain ⟨hd, -, hb, -, -, hi, -, ha, -, ht, -⟩ := h
    simp only [Element.text, List.cons_append] at hnone ⊢
    rw [findAllScan_cons_none _ _ hnone]
    have hrun : '<' ∉ 'h' :: digit :: (before ++ idOpen ++ (id ++ '"' :: (after ++ '>' :: text))) := by
      simp only [List.mem_cons, List.mem_append, not_or, idOpen, List.not_mem_nil, or_false]
      refine ⟨by decide, ?_, ⟨hb, by decide, by decide, by decide, by decide⟩, hi, by decide, ha,
        by decide, ht⟩
      intro hdig
      rw [← hdig] at hd
      exact absurd hd (by decide)
    have := findAllScan_run _ R hrun
    simpa [Element.captures] using this

/-- On an admissible fragment the scan returns the captures of the plain headings, one per
plain heading, in document order, and nothing for the other heading tags. -/
theorem findAll_fragment (items : List (Str × Element)) (last : Str)
    (h : Admissible items last) :
    findAllStringSubmatch (fragment items last)
      = items.filterMap (fun p => p.2.captures) := by
  unfold findAllStringSubmatch
  induction items with
  | nil =>
    simp only [fragment, List.filterMap_nil]
    simpa using findAllScan_filler last [] h (by simp)
  | cons p ps ih =>
    obtain ⟨filler, e⟩ := p
    obtain ⟨hf, he, hrest⟩ := h
    simp only [fragment]
    rw [findAllScan_filler _ _ hf (Element.text_head _ _), findAllScan_element e _ he, ih hrest]
    cases hc : e.captures with
    | none => simp [List.filterMap_cons, hc]
    | some m => simp [List.filterMap_cons, hc]

theorem findAllScan_mem (s : Str) (n : Nat) (m : HeadingMatch) (h : m ∈ findAllScan n s) :
    ∃ t rest, matchHeading t = some (m, rest) := by
  induction s generalizing n with
  | nil => cases n <;> simp [findAllScan] at h
  | cons c cs ih =>
    cases n with
    | succ k => exact ih k (by simpa [findAllScan] using h)
    | zero =>
      cases hm : matchHeading (c :: cs) with
      | none =>
        rw [findAllScan_cons_none _ _ hm] at h
        exact ih 0 h
      | some r =>
        obtain ⟨m', rest⟩ := r
        rw [findAllScan_cons_some _ _ _ _ hm] at h
        rcases List.mem_cons.1 h with h | h
        · exact ⟨c :: cs, rest, by rw [hm, h]⟩
        · exact ih _ h

theorem tocIndent_single (d : Char) : tocIndent [d] = [] := by
  by_cases h : [d] = ['1'] <;> simp [tocIndent, h]

theorem foldl_append_flatten {α : Type} (f : α → Str) (l : List α) (init : Str) :
    l.foldl (fun b m => b ++ f m) init = init ++ (l.map f).flatten := by
  induction l generalizing init with
  | nil => simp
  | cons x xs ih => simp [ih]

/-! ## Table of contents: the claims -/

/-- C3 (what the code does): on `<h1 id="a">A</h1><h2 id="b">B</h2><!-- TOC -->` the entry
of the level-2 heading is written without any indentation, and so is every entry of every
fragment: the captured level is a single character, so the indentation loop never runs. -/
theorem processTableOfContents_indent_lost :
    processTableOfContents "<h1 id=\"a\">A</h1><h2 id=\"b\">B</h2><!-- TOC -->".toList
      = ("<h1 id=\"a\">A</h1><h2 id=\"b\">B</h2>"
          ++ "<div class=\"toc\">\n<h2>Table of Contents</h2>\n<ul>\n"
          ++ "<li><a href=\"#a\">A</a></li>\n<li><a href=\"#b\">B</a></li>\n"
          ++ "</ul>\n</div>\n").toList
    ∧ ∀ (html : Str) (m : HeadingMatch), m ∈ findAllStringSubmatch html →
        tocIndent m.level = [] ∧ tocLine m = tocLink m.id m.title := by
  refine ⟨by decide, ?_⟩
  intro html m hm
  obtain ⟨t, rest, ht⟩ := findAllScan_mem _ _ _ hm
  obtain ⟨d, a, id, b, title, d2, -, -, -, -, -, -, -, -, hcap⟩ := matchHeading_sound _ _ _ ht
  subst hcap
  simp [tocLine, tocLink, tocIndent_single]

/-- C7 (as stated, refuted): the heading `<h2 id="b">B <em>x</em></h2>`, which carries an
id and whose first text run is followed by nested markup, contributes no entry: the scan
finds nothing and the marker is replaced by the empty text. -/
theorem processTableOfContents_nested_markup :
    findAllStringSubmatch "<h2 id=\"b\">B <em>x</em></h2><!-- TOC -->".toList = []
    ∧ processTableOfContents "<h2 id=\"b\">B <em>x</em></h2><!-- TOC -->".toList
        = "<h2 id=\"b\">B <em>x</em></h2>".toList := by
  constructor <;> decide

/-- C7 (amended): in a fragment that contains the marker and is made of heading tags and
of filler texts in which no `<hN` opens, where every heading tag is a plain heading
`<hN BEFORE id="ID" AFTER>TITLE</hM>` (a non-empty title run without `<` directly followed
by the closing tag, `id="ID"` the last `id="` of the opening tag), or an opening tag
without `id="`, or an opening tag with an id whose text run is empty or followed by nested
markup: every plain heading contributes exactly one entry to the generated table of
contents, the entries are in document order, each links to `#` + ID and is labelled with
the trimmed title; the headings of the two other kinds contribute no entry; and when there
is no plain heading the marker is replaced by the empty text. -/
theorem processTableOfContents_entries (items : List (Str × Element)) (last : Str)
    (hadm : Admissible items last)
    (hmarker : stringsContains (fragment items last) "<!-- TOC -->".toList = true) :
    processTableOfContents (fragment items last)
      = stringsReplaceAll (fragment items last) "<!-- TOC -->".toList
          (if items.filterMap (fun p => p.2.captures) = [] then []
           else
            "<div class=\"toc\">\n<h2>Table of Contents</h2>\n<ul>\n".toList
              ++ ((items.filterMap (fun p => p.2.captures)).map (fun m =>
                    tocIndent m.level ++ "<li><a href=\"#".toList ++ m.id ++ "\">".toList
                      ++ stringsTrimSpace m.title ++ "</a></li>\n".toList)).flatten
              ++ "</ul>\n</div>\n".toList) := by
  have hfound := findAll_fragment items last hadm
  have hm : "<!-- TOC -->".toList = tocMarker := rfl
  rw [hm] at hmarker ⊢
  simp only [processTableOfContents, hmarker, Bool.not_true, Bool.false_eq_true, if_false,
    hfound]
  by_cases hnil : items.filterMap (fun p => p.2.captures) = []
  · simp [hnil]
  · have hlen : (items.filterMap (fun p => p.2.captures)).length ≠ 0 :=
      fun h => hnil (List.length_eq_zero.1 h)
    rw [if_neg hlen, if_neg hnil, tocText, foldl_append_flatten]
    rfl

set_option maxRecDepth 100000 in
/-- The text that replaces the marker in the sample fragment, evaluated. -/
theorem sampleFragment_output :
    stringsReplaceAll (fragment sampleFragment "<!-- TOC -->".toList) "<!-- TOC -->".toList
        (if sampleFragment.filterMap (fun p => p.2.captures) = [] then []
         else
          "<div class=\"toc\">\n<h2>Table of Contents</h2>\n<ul>\n".toList
            ++ ((sampleFragment.filterMap (fun p => p.2.captures)).map (fun m =>
                  tocIndent m.level ++ "<li><a href=\"#".toList ++ m.id ++ "\">".toList
                    ++ stringsTrimSpace m.title ++ "</a></li>\n".toList)).flatten
            ++ "</ul>\n</div>\n".toList)
      = ("<h1 class=\"t\" id=\"a\">A</h1><h2>No id</h2><p>x</p><h2 id=\"b\">B <em>x</em></h2>"
          ++ "<h3 id=\"c\" data-x=\"1\"> C </h3>"
          ++ "<div class=\"toc\">\n<h2>Table of Contents</h2>\n<ul>\n"
          ++ "<li><a href=\"#a\">A</a></li>\n<li><a href=\"#c\">C</a></li>\n"
          ++ "</ul>\n</div>\n").toList := by
  decide

/-- C7 (amended) on the sample fragment: the entries are those of A and C, the heading
without id and the heading with nested markup contribute none. -/
theorem processTableOfContents_entries_witness :
    processTableOfContents (fragment sampleFragment "<!-- TOC -->".toList)
      = ("<h1 class=\"t\" id=\"a\">A</h1><h2>No id</h2><p>x</p><h2 id=\"b\">B <em>x</em></h2>"
          ++ "<h3 id=\"c\" data-x=\"1\"> C </h3>"
          ++ "<div class=\"toc\">\n<h2>Table of Contents</h2>\n<ul>\n"
          ++ "<li><a href=\"#a\">A</a></li>\n<li><a href=\"#c\">C</a></li>\n"
          ++ "</ul>\n</div>\n").toList :=
  (processTableOfContents_entries sampleFragment "<!-- TOC -->".toList (by decide)
    (by decide)).trans sampleFragment_output

/-- C8 (as stated, refuted): the fragment `<h2 data-id="x">T</h2><!-- TOC -->` contains the
marker and no heading tag with an attribute named `id`, and `processTableOfContents`
inserts a table of contents with an entry linking to `#x` instead of only deleting the
marker. -/
theorem processTableOfContents_data_id :
    stringsContains "<h2 data-id=\"x\">T</h2><!-- TOC -->".toList "<!-- TOC -->".toList = true
    ∧ headingCarriesIdAttribute "<h2 data-id=\"x\">T</h2><!-- TOC -->".toList = false
    ∧ processTableOfContents "<h2 data-id=\"x\">T</h2><!-- TOC -->".toList
        = ("<h2 data-id=\"x\">T</h2>"
            ++ "<div class=\"toc\">\n<h2>Table of Contents</h2>\n<ul>\n"
            ++ "<li><a href=\"#x\">T</a></li>\n" ++ "</ul>\n</div>\n").toList
    ∧ processTableOfContents "<h2 data-id=\"x\">T</h2><!-- TOC -->".toList
        ≠ stringsReplaceAll "<h2 data-id=\"x\">T</h2><!-- TOC -->".toList
            "<!-- TOC -->".toList [] := by
  refine ⟨by decide, by decide, by decide, by decide⟩

/-- C8 (amended): a fragment that contains the marker and no instance of the heading
pattern (no `<hN`, a tag text holding `id="..."`, be it the attribute `id` or the end of a
longer attribute name, `>`, a non-empty text run and directly a closing heading tag) is cut
by the marker into pieces free of the marker, and `processTableOfContents` returns exactly
the concatenation of the pieces: every occurrence of the marker is deleted, every other
character is kept in its order, nothing is inserted. -/
theorem processTableOfContents_no_heading (html : Str)
    (hmarker : stringsContains html "<!-- TOC -->".toList = true)
    (hnone : ¬ ContainsPatternInstance html) :
    ∃ chunks : List Str, html = stringsJoin chunks "<!-- TOC -->".toList
      ∧ (∀ c ∈ chunks, stringsContains c "<!-- TOC -->".toList = false)
      ∧ processTableOfContents html = chunks.flatten := by
  have hm : "<!-- TOC -->".toList = tocMarker := rfl
  rw [hm] at hmarker ⊢
  have hfound : findAllStringSubmatch html = [] := by
    by_contra h
    exact hnone ((containsPatternInstance_iff html).2 h)
  obtain ⟨chunks, -, h2, h3, h4⟩ := replaceScan_delete tocMarker (by decide) html 0
  refine ⟨chunks, by simpa using h2, h3, ?_⟩
  simp only [processTableOfContents, hmarker, hfound, stringsReplaceAll]
  simpa [tocMarker] using h4

/-- C8 (amended) on `<p>a</p><!-- TOC --><h2>B</h2><!-- TOC -->`. -/
theorem processTableOfContents_no_heading_witness :
    ∃ chunks : List Str,
      "<p>a</p><!-- TOC --><h2>B</h2><!-- TOC -->".toList
          = stringsJoin chunks "<!-- TOC -->".toList
      ∧ (∀ c ∈ chunks, stringsContains c "<!-- TOC -->".toList = false)
      ∧ processTableOfContents "<p>a</p><!-- TOC --><h2>B</h2><!-- TOC -->".toList
          = chunks.flatten :=
  processTableOfContents_no_heading "<p>a</p><!-- TOC --><h2>B</h2><!-- TOC -->".toList
    (by decide) (fun h => (containsPatternInstance_iff _).1 h (by decide))

/-! ## Templates and styles: the claims -/

/-- C9: `loadTemplate` never returns an error, and returns the built-in default template
when the named asset is missing; `loadCSS` starts from the built-in default stylesheet
when the named theme is missing; `loadCSS`, and hence `applyTemplate`, returns an error
exactly when `CSSPath` is non-empty and reading that file fails. -/
theorem template_errors {ε : Type} (templatesFS themesFS : Str → Option Str)
    (readFile : Str → Except ε Str) (base : Str → Str) (config : Config) (content : Str)
    (frontMatter : FrontMatter) :
    (loadTemplate templatesFS config : Except (TemplateError ε) Str)
        = .ok ((templatesFS ("templates/".toList
            ++ (if config.TemplateName = [] then "default".toList else config.TemplateName)
            ++ ".html".toList)).getD getDefaultTemplate)
    ∧ (∀ css, loadCSS themesFS readFile config = .ok css →
        ∃ custom, css = (themesFS ("themes/".toList
            ++ (if config.Theme = [] then "light".toList else config.Theme)
            ++ ".css".toList)).getD getDefaultCSS ++ "\n".toList ++ custom)
    ∧ ((∃ err, loadCSS themesFS readFile config = .error err)
        ↔ (config.CSSPath ≠ [] ∧ ∃ e, readFile config.CSSPath = .error e))
    ∧ ((∃ err, applyTemplate templatesFS themesFS readFile base config content frontMatter
          = .error err)
        ↔ (config.CSSPath ≠ [] ∧ ∃ e, readFile config.CSSPath = .error e)) := by
  have hT : (loadTemplate templatesFS config : Except (TemplateError ε) Str)
      = .ok ((templatesFS ("templates/".toList
            ++ (if config.TemplateName = [] then "default".toList else config.TemplateName)
            ++ ".html".toList)).getD getDefaultTemplate) := by
    unfold loadTemplate
    dsimp only
    split <;> rename_i h <;> rw [h] <;> rfl
  have hC : (∃ err, loadCSS themesFS readFile config = .error err)
      ↔ (config.CSSPath ≠ [] ∧ ∃ e, readFile config.CSSPath = .error e) := by
    unfold loadCSS
    by_cases hp : config.CSSPath = []
    · simp [hp]
    · cases hr : readFile config.CSSPath with
      | error e => simp [hp]
      | ok c => simp [hp]
  refine ⟨hT, ?_, hC, ?_⟩
  · intro css hcss
    unfold loadCSS at hcss
    by_cases hp : config.CSSPath = []
    · refine ⟨[], ?_⟩
      simp only [hp, ne_eq, not_true_eq_false, if_false, Except.ok.injEq] at hcss
      rw [← hcss]
      split <;> rename_i h <;> rw [h] <;> simp
    · cases hr : readFile config.CSSPath with
      | error e => simp [hp, hr] at hcss
      | ok c =>
        refine ⟨c, ?_⟩
        simp only [hp, ne_eq, not_false_eq_true, if_true, hr, Except.ok.injEq] at hcss
        rw [← hcss]
        split <;> rename_i h <;> rw [h] <;> simp
  · rw [← hC]
    unfold applyTemplate
    rw [hT]
    cases loadCSS themesFS readFile config with
    | error e => simp
    | ok css => simp

/-! ## Replacing a tag in a template made of pieces -/

theorem Placeholder.text_eq (p : Placeholder) :
    p.text = '{' :: '{' :: (p.name ++ ['}', '}']) := by
  cases p <;> rfl

theorem Placeholder.name_wellFormed (p : Placeholder) : ∀ x ∈ p.name, x ≠ '{' ∧ x ≠ '}' := by
  cases p <;> decide

theorem Placeholder.name_injective (p q : Placeholder) (h : p.name = q.name) : p = q := by
  cases p <;> cases q <;> first | rfl | (exact absurd h (by decide))

/-- Two names without closing brace, each followed by `}}`: when one text starts with the
other, the names are equal. -/
theorem name_prefix (n m X Y : Str) (hn : ∀ x ∈ n, x ≠ '}') (hm : ∀ x ∈ m, x ≠ '}')
    (h : n ++ '}' :: '}' :: X <+: m ++ '}' :: '}' :: Y) : n = m := by
  induction n generalizing m with
  | nil =>
    cases m with
    | nil => rfl
    | cons c cs =>
      simp only [List.nil_append, List.cons_append, List.cons_prefix_cons] at h
      exact absurd h.1.symm (hm c (by simp))
  | cons a as ih =>
    cases m with
    | nil =>
      simp only [List.nil_append, List.cons_append, List.cons_prefix_cons] at h
      exact absurd h.1 (hn a (by simp))
    | cons c cs =>
      simp only [List.cons_append, List.cons_prefix_cons] at h
      rw [h.1, ih cs (fun x hx => hn x (by simp [hx])) (fun x hx => hm x (by simp [hx])) h.2]

theorem replaceScan_other (o v : Str) (c : Char) (cs : Str) (hc : c ≠ '{') :
    replaceScan ('{' :: o) v 0 (c :: cs) = c :: replaceScan ('{' :: o) v 0 cs := by
  apply replaceScan_miss
  cases hp : ('{' :: o).isPrefixOf (c :: cs) with
  | false => rfl
  | true =>
    rw [List.isPrefixOf_iff_prefix, List.cons_prefix_cons] at hp
    exact absurd hp.1.symm hc

theorem replaceScan_run (o v run R : Str) (hrun : ∀ c ∈ run, c ≠ '{') :
    replaceScan ('{' :: o) v 0 (run ++ R) = run ++ replaceScan ('{' :: o) v 0 R := by
  induction run with
  | nil => rfl
  | cons c cs ih =>
    rw [List.cons_append, replaceScan_other _ _ _ _ (hrun c (by simp)),
      ih (fun x hx => hrun x (by simp [hx]))]
    rfl

/-- An opening brace followed by a character other than `{` starts no tag. -/
theorem replaceScan_brace (o v : Str) (c : Char) (R : Str) (hc : c ≠ '{') :
    replaceScan ('{' :: '{' :: o) v 0 ('{' :: c :: R)
      = '{' :: c :: replaceScan ('{' :: '{' :: o) v 0 R := by
  have h0 : ('{' :: '{' :: o).isPrefixOf ('{' :: c :: R) = false := by
    cases hp : ('{' :: '{' :: o).isPrefixOf ('{' :: c :: R) with
    | false => rfl
    | true =>
      rw [List.isPrefixOf_iff_prefix, List.cons_prefix_cons, List.cons_prefix_cons] at hp
      exact absurd hp.2.1.symm hc
  rw [replaceScan_miss _ _ _ _ h0, replaceScan_other _ _ _ _ hc]

/-- A tag with another name is passed over unchanged. -/
theorem replaceScan_tag_other (name m v R : Str) (hname : ∀ x ∈ name, x ≠ '{' ∧ x ≠ '}')
    (hm : ∀ x ∈ m, x ≠ '{' ∧ x ≠ '}') (hne : m ≠ name) :
    replaceScan ('{' :: '{' :: (name ++ ['}', '}'])) v 0 ('{' :: '{' :: (m ++ '}' :: '}' :: R))
      = '{' :: '{' :: (m ++ '}' :: '}' :: replaceScan ('{' :: '{' :: (name ++ ['}', '}'])) v 0 R) := by
  have h0 : ('{' :: '{' :: (name ++ ['}', '}'])).isPrefixOf
      ('{' :: '{' :: (m ++ '}' :: '}' :: R)) = false := by
    cases hp : ('{' :: '{' :: (name ++ ['}', '}'])).isPrefixOf
        ('{' :: '{' :: (m ++ '}' :: '}' :: R)) with
    | false => rfl
    | true =>
      exfalso
      rw [List.isPrefixOf_iff_prefix, List.cons_prefix_cons, List.cons_prefix_cons] at hp
      apply hne
      symm
      apply name_prefix name m [] R (fun x hx => (hname x hx).2) (fun x hx => (hm x hx).2)
      simpa using hp.2.2
  have h1 : ('{' :: '{' :: (name ++ ['}', '}'])).isPrefixOf
      ('{' :: (m ++ '}' :: '}' :: R)) = false := by
    cases hp : ('{' :: '{' :: (name ++ ['}', '}'])).isPrefixOf
        ('{' :: (m ++ '}' :: '}' :: R)) with
    | false => rfl
    | true =>
      exfalso
      rw [List.isPrefixOf_iff_prefix, List.cons_prefix_cons] at hp
      cases m with
      | nil =>
        simp only [List.nil_append, List.cons_prefix_cons] at hp
        exact absurd hp.2.1 (by decide)
      | cons c cs =>
        simp only [List.cons_append, List.cons_prefix_cons] at hp
        exact (hm c (by simp)).1 hp.2.1.symm
  rw [replaceScan_miss _ _ _ _ h0, replaceScan_miss _ _ _ _ h1,
    replaceScan_run _ _ _ _ (fun c hc => (hm c hc).1),
    replaceScan_other _ _ _ _ (by decide), replaceScan_other _ _ _ _ (by decide)]

theorem renderSegments_cons (s : Segment) (segs : List Segment) :
    renderSegments (s :: segs) = s.text ++ renderSegments segs := by
  simp [renderSegments]

theorem renderSegments_append (a b : List Segment) :
    renderSegments (a ++ b) = renderSegments a ++ renderSegments b := by
  simp [renderSegments]

/-- Replacing the text of a tag in the text of a sequence of pieces replaces the tag among
the pieces. -/
theorem replaceScan_render (name : Str) (value : List Segment) (segs : List Segment)
    (hname : ∀ x ∈ name, x ≠ '{' ∧ x ≠ '}') (hsegs : ∀ s ∈ segs, s.wellFormed) :
    replaceScan ('{' :: '{' :: (name ++ ['}', '}'])) (renderSegments value) 0
        (renderSegments segs)
      = renderSegments (substTag name value segs) := by
  induction segs with
  | nil => rfl
  | cons s segs ih =>
    have ih' := ih (fun x hx => hsegs x (by simp [hx]))
    have hs := hsegs s (by simp)
    have hsub : substTag name value (s :: segs)
        = (if s = .tag name then value else [s]) ++ substTag name value segs := by
      simp [substTag]
    rw [hsub, renderSegments_append, renderSegments_cons, ← ih']
    cases s with
    | char c =>
      simp only [reduceCtorEq, if_false, Segment.text, renderSegments_cons, renderSegments]
      simpa using replaceScan_other _ _ c _ hs
    | brace c =>
      simp only [reduceCtorEq, if_false, Segment.text, renderSegments_cons, renderSegments]
      simpa using replaceScan_brace _ _ c _ hs
    | tag m =>
      by_cases hm : m = name
      · subst hm
        simp only [if_true, Segment.text]
        exact replaceScan_hit _ _ _ (by simp)
      · have hne : Segment.tag m ≠ Segment.tag name := fun h => hm (Segment.tag.inj h)
        simp only [hne, if_false, Segment.text, renderSegments_cons, renderSegments,
          List.map_nil, List.flatten_nil, List.append_nil, List.cons_append, List.append_assoc,
          List.nil_append, List.map_cons, List.flatten_cons]
        exact replaceScan_tag_other name m _ _ hname hs hm

/-- A text in which every `{` is followed by another character is the text of its pieces,
which are well formed and hold no tag. -/
theorem toSegments_spec (v : Str) (h : bracesFollowed v = true) :
    renderSegments (toSegments v) = v ∧ (∀ s ∈ toSegments v, s.wellFormed)
      ∧ (∀ s ∈ toSegments v, ∀ n, s ≠ .tag n) := by
  induction v using toSegments.induct with
  | case1 => simp [toSegments, renderSegments]
  | case2 c =>
    simp only [bracesFollowed, bne_iff_ne, ne_eq] at h
    simp [toSegments, renderSegments, Segment.text, Segment.wellFormed, h]
  | case3 d rest ih =>
    simp only [bracesFollowed, if_true, Bool.and_eq_true, bne_iff_ne, ne_eq] at h
    obtain ⟨h1, h2, h3⟩ := ih h.2
    refine ⟨?_, ?_, ?_⟩
    · simp only [toSegments, if_true, renderSegments_cons, Segment.text, h1]
      rfl
    · intro s hs
      simp only [toSegments, if_true, List.mem_cons] at hs
      rcases hs with hs | hs
      · rw [hs]; exact h.1
      · exact h2 s hs
    · intro s hs n
      simp only [toSegments, if_true, List.mem_cons] at hs
      rcases hs with hs | hs
      · rw [hs]; simp
      · exact h3 s hs n
  | case4 c d rest hc ih =>
    simp only [bracesFollowed, hc, if_false] at h
    obtain ⟨h1, h2, h3⟩ := ih h
    refine ⟨?_, ?_, ?_⟩
    · simp only [toSegments, hc, if_false, renderSegments_cons, Segment.text, h1]
      rfl
    · intro s hs
      simp only [toSegments, hc, if_false, List.mem_cons] at hs
      rcases hs with hs | hs
      · rw [hs]; exact hc
      · exact h2 s hs
    · intro s hs n
      simp only [toSegments, hc, if_false, List.mem_cons] at hs
      rcases hs with hs | hs
      · rw [hs]; simp
      · exact h3 s hs n

theorem substTag_cons (name : Str) (value : List Segment) (s : Segment) (segs : List Segment) :
    substTag name value (s :: segs)
      = (if s = .tag name then value else [s]) ++ substTag name value segs := by
  simp [substTag]

theorem substTag_append (name : Str) (value a b : List Segment) :
    substTag name value (a ++ b) = substTag name value a ++ substTag name value b := by
  simp [substTag]

theorem substTag_wellFormed (name : Str) (value segs : List Segment)
    (hv : ∀ s ∈ value, s.wellFormed) (hsegs : ∀ s ∈ segs, s.wellFormed) :
    ∀ s ∈ substTag name value segs, s.wellFormed := by
  intro s hs
  simp only [substTag, List.mem_flatMap] at hs
  obtain ⟨x, hx, hsx⟩ := hs
  by_cases h : x = .tag name
  · rw [if_pos h] at hsx
    exact hv s hsx
  · rw [if_neg h] at hsx
    rw [List.mem_singleton.1 hsx]
    exact hsegs x hx

/-- Pieces without tag are left alone. -/
theorem substTag_plain (name : Str) (value segs : List Segment)
    (hsegs : ∀ s ∈ segs, ∀ n, s ≠ .tag n) : substTag name value segs = segs := by
  induction segs with
  | nil => rfl
  | cons s segs ih =>
    rw [substTag_cons, if_neg (hsegs s (by simp) name), ih (fun x hx => hsegs x (by simp [hx]))]
    rfl

/-- Replacing the tags of two different names by pieces without tag, in either order. -/
theorem substTag_comm (n1 n2 : Str) (v1 v2 segs : List Segment) (hne : n1 ≠ n2)
    (h1 : ∀ s ∈ v1, ∀ n, s ≠ .tag n) (h2 : ∀ s ∈ v2, ∀ n, s ≠ .tag n) :
    substTag n1 v1 (substTag n2 v2 segs) = substTag n2 v2 (substTag n1 v1 segs) := by
  induction segs with
  | nil => rfl
  | cons s segs ih =>
    rw [substTag_cons, substTag_cons, substTag_append, substTag_append, ih]
    congr 1
    by_cases ha : s = .tag n1
    · have hb : s ≠ .tag n2 := by
        rw [ha]
        exact fun h => hne (Segment.tag.inj h)
      rw [if_pos ha, if_neg hb, substTag_plain _ _ _ h1, substTag_cons, if_pos ha]
      simp [substTag]
    · by_cases hb : s = .tag n2
      · rw [if_neg ha, if_pos hb, substTag_plain _ _ _ h2, substTag_cons, if_pos hb]
        simp [substTag]
      · rw [if_neg ha, if_neg hb, substTag_cons, substTag_cons, if_neg ha, if_neg hb]
        simp [substTag]

/-- The value substituted for a placeholder. -/
theorem replaceStep_render (title css content : Str) (p : Placeholder) (segs : List Segment)
    (hsegs : ∀ s ∈ segs, s.wellFormed) (ht : bracesFollowed title = true)
    (hc : bracesFollowed css = true) (hn : bracesFollowed content = true) :
    replaceStep title css content p (renderSegments segs)
      = renderSegments (substTag p.name
          (toSegments (match p with
            | .title => title
            | .css => css
            | .content => content)) segs) := by
  have hv : bracesFollowed (match p with
      | .title => title
      | .css => css
      | .content => content) = true := by
    cases p <;> assumption
  rw [← replaceScan_render _ _ _ p.name_wellFormed hsegs, (toSegments_spec _ hv).1]
  unfold replaceStep stringsReplaceAll
  rw [p.text_eq, if_neg (by simp)]

/-- The steps of an order on the text of a sequence of pieces are the replacements of
the tags among the pieces. -/
theorem replaceInOrder_render (title css content : Str) (order : List Placeholder)
    (segs : List Segment) (hsegs : ∀ s ∈ segs, s.wellFormed)
    (ht : bracesFollowed title = true) (hc : bracesFollowed css = true)
    (hn : bracesFollowed content = true) :
    replaceInOrder title css content order (renderSegments segs)
      = renderSegments (order.foldl (fun sg p => substTag p.name
          (toSegments (match p with
            | .title => title
            | .css => css
            | .content => content)) sg) segs) := by
  unfold replaceInOrder
  induction order generalizing segs with
  | nil => rfl
  | cons p ps ih =>
    simp only [List.foldl_cons]
    rw [replaceStep_render title css content p segs hsegs ht hc hn]
    apply ih
    apply substTag_wellFormed _ _ _ _ hsegs
    have hv : bracesFollowed (match p with
        | .title => title
        | .css => css
        | .content => content) = true := by
      cases p <;> assumption
    exact (toSegments_spec _ hv).2.1

/-! ## Template composition: the order of substitution -/

/-- C10 (as stated, refuted): with the template `{{TITLE}}`, the title `{{CSS}}` and the
CSS `x`, the order of the code gives `x` and the order CSS, title, content gives
`{{CSS}}`; with the template `{{TI{{CSS}}TLE}}`, the title `T` and an empty CSS, the
order of the code gives `{{TITLE}}` and the order CSS, title, content gives `T`. -/
theorem replacePlaceholders_order_matters :
    replaceInOrder "\x7b\x7bCSS\x7d\x7d".toList "x".toList [] [.css, .title, .content]
        "\x7b\x7bTITLE\x7d\x7d".toList
      ≠ replacePlaceholders "\x7b\x7bTITLE\x7d\x7d".toList "\x7b\x7bCSS\x7d\x7d".toList
          "x".toList []
    ∧ replaceInOrder "T".toList [] [] [.css, .title, .content]
        "\x7b\x7bTI\x7b\x7bCSS\x7d\x7dTLE\x7d\x7d".toList
      ≠ replacePlaceholders "\x7b\x7bTI\x7b\x7bCSS\x7d\x7dTLE\x7d\x7d".toList "T".toList [] [] := by
  constructor <;> decide

/-- C10 (amended): for a template that is a sequence of tags `{{name}}` (names without
braces) and of other characters in which every `{` outside a tag is followed by a
character other than `{`, and for a title, a CSS and a content in which every `{` is
followed by a character other than `{`, the three replace-all steps applied in any of the
six orders give the document of the order of the code (title, CSS, content). -/
theorem replacePlaceholders_order_irrelevant (segs : List Segment) (title css content : Str)
    (hsegs : ∀ s ∈ segs, s.wellFormed) (ht : bracesFollowed title = true)
    (hc : bracesFollowed css = true) (hn : bracesFollowed content = true)
    (order : List Placeholder) (horder : order.Perm [.title, .css, .content]) :
    replaceInOrder title css content order (renderSegments segs)
      = replacePlaceholders (renderSegments segs) title css content := by
  have hcode : replacePlaceholders (renderSegments segs) title css content
      = replaceInOrder title css content [.title, .css, .content] (renderSegments segs) := rfl
  rw [hcode, replaceInOrder_render _ _ _ _ _ hsegs ht hc hn,
    replaceInOrder_render _ _ _ _ _ hsegs ht hc hn]
  congr 1
  apply List.Perm.foldl_eq' horder
  intro p _ q _ sg
  by_cases hpq : p = q
  · rw [hpq]
  · have hv : ∀ r : Placeholder, bracesFollowed (match r with
        | .title => title
        | .css => css
        | .content => content) = true := by
      intro r
      cases r <;> assumption
    exact substTag_comm _ _ _ _ _ (fun h => hpq (Placeholder.name_injective _ _ h).symm)
      (toSegments_spec _ (hv q)).2.2 (toSegments_spec _ (hv p)).2.2

/-- C10 (amended) on the template `<style>{{CSS}}</style>{{TITLE}}{{AUTHOR}}{{CONTENT}}`
with a CSS that holds braces, in the order content, CSS, title. -/
theorem replacePlaceholders_order_irrelevant_witness :
    replaceInOrder "T {1}".toList "p { margin: 0 }".toList "<p>x</p>".toList
        [.content, .css, .title]
        (renderSegments ("<style>".toList.map Segment.char ++ [.tag "CSS".toList]
          ++ "</style>".toList.map Segment.char
          ++ [.tag "TITLE".toList, .tag "AUTHOR".toList, .tag "CONTENT".toList]))
      = replacePlaceholders
          (renderSegments ("<style>".toList.map Segment.char ++ [.tag "CSS".toList]
            ++ "</style>".toList.map Segment.char
            ++ [.tag "TITLE".toList, .tag "AUTHOR".toList, .tag "CONTENT".toList]))
          "T {1}".toList "p { margin: 0 }".toList "<p>x</p>".toList :=
  replacePlaceholders_order_irrelevant _ _ _ _ (by decide) (by decide) (by decide) (by decide)
    _ (by decide)

/-! ## The watch loop: lemmas -/

/-- Saturation does not change the comparison with the window. -/
theorem timeSub_lt_window (now last : Int) :
    timeSub now last < 2 * second ↔ now - last < 2 * second := by
  simp only [timeSub, second, maxDuration, minDuration]
  split_ifs <;> omega

/-- An event that is not a write on a markdown path leaves the state as it is. -/
theorem handleEvent_filtered (toLower : Str → Str) (st : WatchState) (event : FsEvent)
    (now : Int)
    (h : ¬ (event.Op &&& fsnotifyWrite = fsnotifyWrite
      ∧ isMarkdownFile toLower event.Name = true)) :
    handleEvent toLower st event now = st := by
  simp only [handleEvent, h, if_false]

/-- A write on a markdown path inside the window leaves the state as it is. -/
theorem handleEvent_debounced (toLower : Str → Str) (st : WatchState) (event : FsEvent)
    (now last : Int) (hlast : st.recentlyProcessed event.Name = some last)
    (hwin : now - last < 2 * second) :
    handleEvent toLower st event now = st := by
  by_cases h : event.Op &&& fsnotifyWrite = fsnotifyWrite
      ∧ isMarkdownFile toLower event.Name = true
  · simp only [handleEvent, h, and_self, if_true, hlast, (timeSub_lt_window now last).2 hwin,
      decide_True]
  · exact handleEvent_filtered toLower st event now h

/-- A write on a markdown path outside the window, or on a path without recorded time, is
recorded and triggers a conversion. -/
theorem handleEvent_accepted (toLower : Str → Str) (st : WatchState) (event : FsEvent)
    (now : Int) (hw : event.Op &&& fsnotifyWrite = fsnotifyWrite)
    (hmd : isMarkdownFile toLower event.Name = true)
    (hwin : ∀ last, st.recentlyProcessed event.Name = some last → 2 * second ≤ now - last) :
    handleEvent toLower st event now =
      { recentlyProcessed := fun name => if name = event.Name then some now
                                          else st.recentlyProcessed name,
        conversions := st.conversions ++ [(event.Name, now)] } := by
  cases hl : st.recentlyProcessed event.Name with
  | none => simp [handleEvent, hw, hmd, hl]
  | some last =>
    have hnot : ¬ timeSub now last < 2 * second := by
      rw [timeSub_lt_window]
      have := hwin last hl
      omega
    simp [handleEvent, hw, hmd, hl, hnot]

theorem lastAccepted_append (path name : Str) (now : Int) (log : List (Str × Int)) :
    lastAccepted path (log ++ [(name, now)])
      = if name = path then some now else lastAccepted path log := by
  unfold lastAccepted
  by_cases h : name = path
  · simp [List.filter_append, h]
  · simp [List.filter_append, h]

theorem watchLoop_append (toLower : Str → Str) (st : WatchState) (events : List (FsEvent × Int))
    (e : FsEvent × Int) :
    watchLoop toLower st (events ++ [e])
      = handleEvent toLower (watchLoop toLower st events) e.1 e.2 := by
  simp [watchLoop, List.foldl_append]

theorem watchInvariant_init : WatchInvariant WatchState.init := by
  refine ⟨fun path => rfl, List.Pairwise.nil, ?_⟩
  intro a ha
  cases ha

/-- Every turn of the loop keeps the invariant. -/
theorem watchInvariant_step (toLower : Str → Str) (st : WatchState) (event : FsEvent)
    (now : Int) (hinv : WatchInvariant st) :
    WatchInvariant (handleEvent toLower st event now) := by
  obtain ⟨h1, h2, h3⟩ := hinv
  by_cases hf : event.Op &&& fsnotifyWrite = fsnotifyWrite
      ∧ isMarkdownFile toLower event.Name = true
  swap
  · rw [handleEvent_filtered toLower st event now hf]
    exact ⟨h1, h2, h3⟩
  by_cases hwin : ∀ last, st.recentlyProcessed event.Name = some last → 2 * second ≤ now - last
  swap
  · push_neg at hwin
    obtain ⟨last, hlast, hlt⟩ := hwin
    rw [handleEvent_debounced toLower st event now last hlast hlt]
    exact ⟨h1, h2, h3⟩
  rw [handleEvent_accepted toLower st event now hf.1 hf.2 hwin]
  have hearlier : ∀ a ∈ st.conversions, a.1 = event.Name → 2 * second ≤ now - a.2 := by
    intro a ha hname
    obtain ⟨last, hlast, hle⟩ := h3 a ha
    rw [hname, ← h1] at hlast
    have := hwin last hlast
    omega
  refine ⟨?_, ?_, ?_⟩
  · intro path
    simp only [lastAccepted_append, h1]
    by_cases hp : path = event.Name
    · simp [hp]
    · have hp' : ¬ event.Name = path := fun h => hp h.symm
      simp [hp, hp']
  · simp only [List.pairwise_append, List.pairwise_cons, List.Pairwise.nil, and_true,
      List.mem_singleton, List.not_mem_nil, false_implies, implies_true, true_and]
    refine ⟨h2, ?_⟩
    intro a ha b hb hab
    subst hb
    exact hearlier a ha hab
  · intro a ha
    simp only [lastAccepted_append]
    rcases List.mem_append.1 ha with ha | ha
    · by_cases hn : event.Name = a.1
      · refine ⟨now, by simp [hn], ?_⟩
        have := hearlier a ha hn.symm
        simp only [second] at this
        omega
      · obtain ⟨last, hlast, hle⟩ := h3 a ha
        exact ⟨last, by simp [hn, hlast], hle⟩
    · rw [List.mem_singleton.1 ha]
      exact ⟨now, by simp, le_refl _⟩

theorem watchInvariant_loop (toLower : Str → Str) (events : List (FsEvent × Int))
    (st : WatchState) (hinv : WatchInvariant st) :
    WatchInvariant (watchLoop toLower st events) := by
  induction events generalizing st with
  | nil => exact hinv
  | cons e es ih => exact ih _ (watchInvariant_step toLower st e.1 e.2 hinv)

/-- A turn of the loop appends at most the conversion of its event. -/
theorem handleEvent_conversions (toLower : Str → Str) (st : WatchState) (event : FsEvent)
    (now : Int) :
    handleEvent toLower st event now = st
      ∨ (handleEvent toLower st event now).conversions = st.conversions ++ [(event.Name, now)] := by
  by_cases hf : event.Op &&& fsnotifyWrite = fsnotifyWrite
      ∧ isMarkdownFile toLower event.Name = true
  swap
  · exact Or.inl (handleEvent_filtered toLower st event now hf)
  by_cases hwin : ∀ last, st.recentlyProcessed event.Name = some last → 2 * second ≤ now - last
  · right
    rw [handleEvent_accepted toLower st event now hf.1 hf.2 hwin]
  · push_neg at hwin
    obtain ⟨last, hlast, hlt⟩ := hwin
    exact Or.inl (handleEvent_debounced toLower st event now last hlast hlt)

/-- The conversions are triggered by events of the sequence, in their order. -/
theorem watchLoop_sublist (toLower : Str → Str) (events : List (FsEvent × Int)) :
    (watchLoop toLower WatchState.init events).conversions.Sublist
      (events.map (fun e => (e.1.Name, e.2))) := by
  induction events using List.reverseRecOn with
  | nil => exact List.Sublist.slnil
  | append_singleton es e ih =>
    rw [watchLoop_append, List.map_append]
    rcases handleEvent_conversions toLower (watchLoop toLower WatchState.init es) e.1 e.2
      with h | h
    · rw [h]
      exact ih.trans (List.sublist_append_left _ _)
    · rw [h]
      exact List.Sublist.append ih (List.Sublist.refl _)

/-! ## The watch loop: the claims -/

/-- C11: from the empty map, two write notifications for the same markdown path handled
at the times `t1` and `t2` trigger exactly one conversion when `t2 - t1` is below two
seconds and exactly two conversions otherwise (whatever the order of the two times, so in
particular for `t1 <= t2`). -/
theorem watchLoop_two_writes (toLower : Str → Str) (e1 e2 : FsEvent) (t1 t2 : Int)
    (hw1 : e1.Op &&& fsnotifyWrite = fsnotifyWrite)
    (hw2 : e2.Op &&& fsnotifyWrite = fsnotifyWrite)
    (hmd : isMarkdownFile toLower e1.Name = true) (hname : e2.Name = e1.Name) :
    (watchLoop toLower WatchState.init [(e1, t1), (e2, t2)]).conversions.length
      = if t2 - t1 < 2 * second then 1 else 2 := by
  have hmd2 : isMarkdownFile toLower e2.Name = true := by rw [hname]; exact hmd
  have hfirst : handleEvent toLower WatchState.init e1 t1 =
      { recentlyProcessed := fun name => if name = e1.Name then some t1 else none,
        conversions := [(e1.Name, t1)] } := by
    rw [handleEvent_accepted toLower WatchState.init e1 t1 hw1 hmd
      (fun last hlast => by simp [WatchState.init] at hlast)]
    rfl
  simp only [watchLoop, List.foldl_cons, List.foldl_nil, hfirst]
  by_cases hwin : t2 - t1 < 2 * second
  · rw [handleEvent_debounced toLower _ e2 t2 t1 (by simp [hname]) hwin, if_pos hwin]
    rfl
  · rw [handleEvent_accepted toLower _ e2 t2 hw2 hmd2 (by
      intro last hlast
      simp only [hname, if_true, Option.some.injEq] at hlast
      omega), if_neg hwin]
    rfl

/-- C11 on two writes of `docs/a.md` handled 1.5 seconds apart: one conversion. -/
theorem watchLoop_two_writes_witness :
    (watchLoop asciiToLower WatchState.init
        [(⟨"docs/a.md".toList, 2⟩, 0), (⟨"docs/a.md".toList, 2⟩, 1500000000)]).conversions.length
      = if (1500000000 : Int) - 0 < 2 * second then 1 else 2 :=
  watchLoop_two_writes asciiToLower ⟨"docs/a.md".toList, 2⟩ ⟨"docs/a.md".toList, 2⟩ 0 1500000000
    (by decide) (by decide) (by decide) rfl

/-- C13: after every finite sequence of events handled from the empty map (in particular
the write events on markdown paths with non-decreasing times), the time recorded for a
path is the time of its last conversion; any two conversions of one path are at least two
seconds apart; every conversion is that of an event of the sequence, in order; an event
that triggers no conversion leaves the state, hence the map, unchanged; and the next write
on a markdown path triggers a conversion exactly when it is at least two seconds after the
last conversion of its path, however many events were discarded in between. -/
theorem watchLoop_last_accepted (toLower : Str → Str) (events : List (FsEvent × Int)) :
    (∀ path, (watchLoop toLower WatchState.init events).recentlyProcessed path
        = lastAccepted path (watchLoop toLower WatchState.init events).conversions)
    ∧ (watchLoop toLower WatchState.init events).conversions.Pairwise
        (fun a b => a.1 = b.1 → 2 * second ≤ b.2 - a.2)
    ∧ (watchLoop toLower WatchState.init events).conversions.Sublist
        (events.map (fun e => (e.1.Name, e.2)))
    ∧ (∀ (event : FsEvent) (now : Int),
        (handleEvent toLower (watchLoop toLower WatchState.init events) event now).conversions
            = (watchLoop toLower WatchState.init events).conversions →
          handleEvent toLower (watchLoop toLower WatchState.init events) event now
            = watchLoop toLower WatchState.init events)
    ∧ (∀ (event : FsEvent) (now : Int), event.Op &&& fsnotifyWrite = fsnotifyWrite →
        isMarkdownFile toLower event.Name = true →
          ((handleEvent toLower (watchLoop toLower WatchState.init events) event now).conversions
              = (watchLoop toLower WatchState.init events).conversions ++ [(event.Name, now)]
            ↔ ∀ last,
                lastAccepted event.Name (watchLoop toLower WatchState.init events).conversions
                  = some last → 2 * second ≤ now - last)) := by
  obtain ⟨h1, h2, -⟩ := watchInvariant_loop toLower events WatchState.init watchInvariant_init
  refine ⟨h1, h2, watchLoop_sublist toLower events, ?_, ?_⟩
  · intro event now hsame
    rcases handleEvent_conversions toLower (watchLoop toLower WatchState.init events) event now
      with h | h
    · exact h
    · rw [h] at hsame
      have := congrArg List.length hsame
      simp at this
  · intro event now hw hmd
    constructor
    · intro hacc last hlast
      by_contra hlt
      rw [← h1] at hlast
      rw [handleEvent_debounced toLower _ event now last hlast (by omega)] at hacc
      have := congrArg List.length hacc
      simp at this
    · intro hwin
      rw [handleEvent_accepted toLower _ event now hw hmd (fun last hlast => by
        rw [h1] at hlast
        exact hwin last hlast)]

/-! ## The temporary file of `htmlToPDFChrome`: the claim -/

theorem osRemove_absent (fs : FileSystem) (name : Str) : osRemove fs name name = none := by
  simp [osRemove]

/-- C12: when the temporary HTML file was written, the file does not exist in the file
system `htmlToPDFChrome` leaves behind, on each of the exits after the write: the failure
of the browser run (session, navigation, capture or expired deadline), the failure to
write the output PDF, and the success. -/
theorem htmlToPDFChrome_removes_temp {ε : Type} (writeFails : FileSystem → Str → Option ε)
    (chromedpRun : FileSystem → Str → Except ε (List Nat) × FileSystem) (tempHTMLPath : Str)
    (config : Config) (fs : FileSystem) (htmlContent : Str)
    (hwritten : (osWriteFile writeFails fs tempHTMLPath (utf8Bytes htmlContent)).1 = none) :
    (htmlToPDFChrome writeFails chromedpRun tempHTMLPath config fs htmlContent).fs tempHTMLPath
        = none
    ∧ ((htmlToPDFChrome writeFails chromedpRun tempHTMLPath config fs htmlContent).err = none
      ∨ (∃ e, (htmlToPDFChrome writeFails chromedpRun tempHTMLPath config fs htmlContent).err
            = some (.generate e))
      ∨ (∃ e, (htmlToPDFChrome writeFails chromedpRun tempHTMLPath config fs htmlContent).err
            = some (.writePDF e))) := by
  unfold htmlToPDFChrome
  cases hw : osWriteFile writeFails fs tempHTMLPath (utf8Bytes htmlContent) with
  | mk err fs1 =>
    rw [hw] at hwritten
    simp only at hwritten
    subst hwritten
    simp only
    cases hrun : chromedpRun fs1 ("file://".toList ++ tempHTMLPath) with
    | mk res fs2 =>
      cases res with
      | error e =>
        simp only
        exact ⟨osRemove_absent _ _, Or.inr (Or.inl ⟨e, rfl⟩)⟩
      | ok pdfBuffer =>
        simp only
        cases hout : osWriteFile writeFails fs2 config.OutputPath pdfBuffer with
        | mk err2 fs3 =>
          cases err2 with
          | some e => exact ⟨osRemove_absent _ _, Or.inr (Or.inr ⟨e, rfl⟩)⟩
          | none => exact ⟨osRemove_absent _ _, Or.inl rfl⟩

/-- C12 on a browser run that ends with the expired deadline. -/
theorem htmlToPDFChrome_removes_temp_witness :
    (htmlToPDFChrome (fun _ _ => (none : Option String))
        (fun fs _ => (.error "context deadline exceeded", fs)) "/tmp/pdfy_1.html".toList
        ⟨"a.md".toList, "a.pdf".toList, [], [], []⟩ (fun _ => none) "<p>x</p>".toList).fs
        "/tmp/pdfy_1.html".toList = none
    ∧ ((htmlToPDFChrome (fun _ _ => (none : Option String))
        (fun fs _ => (.error "context deadline exceeded", fs)) "/tmp/pdfy_1.html".toList
        ⟨"a.md".toList, "a.pdf".toList, [], [], []⟩ (fun _ => none) "<p>x</p>".toList).err = none
      ∨ (∃ e, (htmlToPDFChrome (fun _ _ => (none : Option String))
        (fun fs _ => (.error "context deadline exceeded", fs)) "/tmp/pdfy_1.html".toList
        ⟨"a.md".toList, "a.pdf".toList, [], [], []⟩ (fun _ => none) "<p>x</p>".toList).err
            = some (.generate e))
      ∨ (∃ e, (htmlToPDFChrome (fun _ _ => (none : Option String))
        (fun fs _ => (.error "context deadline exceeded", fs)) "/tmp/pdfy_1.html".toList
        ⟨"a.md".toList, "a.pdf".toList, [], [], []⟩ (fun _ => none) "<p>x</p>".toList).err
            = some (.writePDF e))) :=
  htmlToPDFChrome_removes_temp _ _ _ _ _ _ rfl

/-! ## Texts that a replacement cannot touch: lemmas -/

theorem incomparable_not_prefix (u v post : Str) (h : incomparable u v = true) :
    u.isPrefixOf (v ++ post) = false := by
  simp only [incomparable, Bool.and_eq_true, Bool.not_eq_true', List.isPrefixOf_iff_prefix] at h
  cases hp : u.isPrefixOf (v ++ post) with
  | false => rfl
  | true =>
    exfalso
    rw [List.isPrefixOf_iff_prefix] at hp
    have hu : ¬ u <+: v := by
      intro hc
      have := List.isPrefixOf_iff_prefix.2 hc
      rw [h.1] at this
      cases this
    have hv : ¬ v <+: u := by
      intro hc
      have := List.isPrefixOf_iff_prefix.2 hc
      rw [h.2] at this
      cases this
    rcases List.prefix_or_prefix_of_prefix hp (List.prefix_append v post) with h1 | h1
    · exact hu h1
    · exact hv h1

theorem cannotOverlap_inside (old kept : Str) (h : cannotOverlap old kept = true) (i : Nat)
    (hi : i < kept.length) : incomparable old (kept.drop i) = true := by
  simp only [cannotOverlap, Bool.and_eq_true, List.all_eq_true, List.mem_range] at h
  exact h.1 i hi

theorem cannotOverlap_suffix (old kept : Str) (h : cannotOverlap old kept = true) (j : Nat)
    (hj : j < old.length) : incomparable (old.drop j) kept = true := by
  simp only [cannotOverlap, Bool.and_eq_true, List.all_eq_true, List.mem_range] at h
  exact h.2 j hj

/-- The scan passes through an occurrence of the kept text without a match. -/
theorem replaceScan_through (old new kept post : Str) (h : cannotOverlap old kept = true)
    (k : Str) (hk : k <:+ kept) :
    replaceScan old new 0 (k ++ post) = k ++ replaceScan old new 0 post := by
  induction k with
  | nil => rfl
  | cons c k' ih =>
    obtain ⟨t, ht⟩ := hk
    have hdrop : kept.drop t.length = c :: k' := by
      rw [← ht, List.drop_left]
    have hlen : t.length < kept.length := by
      rw [← ht]
      simp
    have hmiss : old.isPrefixOf (c :: (k' ++ post)) = false := by
      have := incomparable_not_prefix old (kept.drop t.length) post
        (cannotOverlap_inside old kept h _ hlen)
      rwa [hdrop] at this
    rw [List.cons_append, replaceScan_miss _ _ _ _ hmiss,
      ih ⟨t ++ [c], by rw [← ht]; simp⟩]
    rfl

/-- An occurrence of `old` that starts before the kept text ends before it. -/
theorem occurrence_before (old kept pre post : Str) (h : cannotOverlap old kept = true)
    (hp : old <+: pre ++ (kept ++ post)) : old.length ≤ pre.length := by
  by_contra hlt
  have hlt : pre.length < old.length := by omega
  have hpre : pre <+: old :=
    List.prefix_of_prefix_length_le (List.prefix_append pre _) hp (by omega)
  obtain ⟨u, hu⟩ := hpre
  have hdrop : old.drop pre.length = u := by
    rw [← hu, List.drop_left]
  have hu' : u <+: kept ++ post := by
    rw [← hu] at hp
    exact (List.prefix_append_right_inj pre).1 hp
  have := incomparable_not_prefix (old.drop pre.length) kept post
    (cannotOverlap_suffix old kept h _ hlt)
  rw [hdrop] at this
  have hyes := List.isPrefixOf_iff_prefix.2 hu'
  rw [this] at hyes
  cases hyes

/-- A replacement of `old` keeps an occurrence of a text that `old` cannot overlap. -/
theorem replaceScan_keeps (old new kept post : Str) (h : cannotOverlap old kept = true)
    (pre : Str) (n : Nat) (hn : n ≤ pre.length) :
    ∃ X Y, replaceScan old new n (pre ++ (kept ++ post)) = X ++ (kept ++ Y) := by
  induction pre generalizing n with
  | nil =>
    have hn0 : n = 0 := by simpa using hn
    subst hn0
    exact ⟨[], replaceScan old new 0 post, by
      rw [List.nil_append, List.nil_append,
        replaceScan_through old new kept post h kept (List.suffix_refl _)]⟩
  | cons c pre' ih =>
    cases n with
    | succ k =>
      obtain ⟨X, Y, hXY⟩ := ih k (by simpa using hn)
      exact ⟨X, Y, by simpa [replaceScan] using hXY⟩
    | zero =>
      cases hp : old.isPrefixOf (c :: (pre' ++ (kept ++ post))) with
      | false =>
        obtain ⟨X, Y, hXY⟩ := ih 0 (by omega)
        exact ⟨c :: X, Y, by rw [List.cons_append, replaceScan_miss _ _ _ _ hp, hXY]; rfl⟩
      | true =>
        have hle := occurrence_before old kept (c :: pre') post h
          (List.isPrefixOf_iff_prefix.1 hp)
        obtain ⟨X, Y, hXY⟩ := ih (old.length - 1) (by simp at hle; omega)
        refine ⟨new ++ X, Y, ?_⟩
        rw [List.cons_append]
        simp only [replaceScan, hp, if_true]
        rw [hXY]
        simp

/-- The result of `strings.ReplaceAll` contains every text that the text contained and that
`old` cannot overlap. -/
theorem stringsReplaceAll_keeps (s old new kept : Str) (h : cannotOverlap old kept = true)
    (hold : old ≠ []) (hs : stringsContains s kept = true) :
    stringsContains (stringsReplaceAll s old new) kept = true := by
  obtain ⟨pre, post, rfl⟩ := (stringsContains_iff s kept).1 hs
  obtain ⟨X, Y, hXY⟩ := replaceScan_keeps old new kept post h pre 0 (by omega)
  rw [stringsReplaceAll, if_neg hold, List.append_assoc, hXY]
  exact (stringsContains_iff _ _).2 ⟨X, Y, by simp⟩

/-- The three replacements of `applyTemplate` keep every text of the template that none of
the three placeholders can overlap. -/
theorem replacePlaceholders_keeps (template title css content kept : Str)
    (h1 : cannotOverlap Placeholder.title.text kept = true)
    (h2 : cannotOverlap Placeholder.css.text kept = true)
    (h3 : cannotOverlap Placeholder.content.text kept = true)
    (hs : stringsContains template kept = true) :
    stringsContains (replacePlaceholders template title css content) kept = true := by
  unfold replacePlaceholders
  exact stringsReplaceAll_keeps _ _ _ _ h3 (by decide)
    (stringsReplaceAll_keeps _ _ _ _ h2 (by decide)
      (stringsReplaceAll_keeps _ _ _ _ h1 (by decide) hs))

set_option maxRecDepth 100000 in
/-- The built-in template holds the four texts that no replacement is made for. -/
theorem getDefaultTemplate_contains :
    stringsContains getDefaultTemplate "\x7b\x7bAUTHOR\x7d\x7d".toList = true
    ∧ stringsContains getDefaultTemplate "\x7b\x7bDATE\x7d\x7d".toList = true
    ∧ stringsContains getDefaultTemplate "\x7b\x7bHEADER\x7d\x7d".toList = true
    ∧ stringsContains getDefaultTemplate "\x7b\x7bFOOTER\x7d\x7d".toList = true := by
  refine ⟨by decide, by decide, by decide, by decide⟩

/-! ## The built-in template: the claim -/

/-- C14: for every title, CSS and content, the document made from the built-in template
by the three replacements of `applyTemplate` still contains the texts `{{AUTHOR}}`,
`{{DATE}}`, `{{HEADER}}` and `{{FOOTER}}`; and so does every document `applyTemplate`
returns when the named template asset is missing. -/
theorem applyTemplate_default_keeps :
    (∀ title css content : Str,
      stringsContains (replacePlaceholders getDefaultTemplate title css content)
          "\x7b\x7bAUTHOR\x7d\x7d".toList = true
      ∧ stringsContains (replacePlaceholders getDefaultTemplate title css content)
          "\x7b\x7bDATE\x7d\x7d".toList = true
      ∧ stringsContains (replacePlaceholders getDefaultTemplate title css content)
          "\x7b\x7bHEADER\x7d\x7d".toList = true
      ∧ stringsContains (replacePlaceholders getDefaultTemplate title css content)
          "\x7b\x7bFOOTER\x7d\x7d".toList = true)
    ∧ ∀ (ε : Type) (templatesFS themesFS : Str → Option Str) (readFile : Str → Except ε Str)
        (base : Str → Str) (config : Config) (content : Str) (frontMatter : FrontMatter)
        (doc : Str),
        templatesFS ("templates/".toList
            ++ (if config.TemplateName = [] then "default".toList else config.TemplateName)
            ++ ".html".toList) = none →
        applyTemplate templatesFS themesFS readFile base config content frontMatter = .ok doc →
        stringsContains doc "\x7b\x7bAUTHOR\x7d\x7d".toList = true
        ∧ stringsContains doc "\x7b\x7bDATE\x7d\x7d".toList = true
        ∧ stringsContains doc "\x7b\x7bHEADER\x7d\x7d".toList = true
        ∧ stringsContains doc "\x7b\x7bFOOTER\x7d\x7d".toList = true := by
  have hcore : ∀ title css content : Str,
      stringsContains (replacePlaceholders getDefaultTemplate title css content)
          "\x7b\x7bAUTHOR\x7d\x7d".toList = true
      ∧ stringsContains (replacePlaceholders getDefaultTemplate title css content)
          "\x7b\x7bDATE\x7d\x7d".toList = true
      ∧ stringsContains (replacePlaceholders getDefaultTemplate title css content)
          "\x7b\x7bHEADER\x7d\x7d".toList = true
      ∧ stringsContains (replacePlaceholders getDefaultTemplate title css content)
          "\x7b\x7bFOOTER\x7d\x7d".toList = true := by
    intro title css content
    obtain ⟨ha, hd, hh, hf⟩ := getDefaultTemplate_contains
    exact ⟨replacePlaceholders_keeps _ _ _ _ _ (by decide) (by decide) (by decide) ha,
      replacePlaceholders_keeps _ _ _ _ _ (by decide) (by decide) (by decide) hd,
      replacePlaceholders_keeps _ _ _ _ _ (by decide) (by decide) (by decide) hh,
      replacePlaceholders_keeps _ _ _ _ _ (by decide) (by decide) (by decide) hf⟩
  refine ⟨hcore, ?_⟩
  intro ε templatesFS themesFS readFile base config content frontMatter doc hmissing hdoc
  have hT : (loadTemplate templatesFS config : Except (TemplateError ε) Str)
      = .ok getDefaultTemplate := by
    unfold loadTemplate
    dsimp only
    rw [hmissing]
  unfold applyTemplate at hdoc
  rw [hT] at hdoc
  cases hcss : loadCSS themesFS readFile config with
  | error e =>
    rw [hcss] at hdoc
    cases hdoc
  | ok css =>
    rw [hcss] at hdoc
    simp only [Except.ok.injEq] at hdoc
    rw [← hdoc]
    exact hcore _ css content

end Pdfy
